import Mathlib

/-!
# Verification of `trashmap.h`

A shallow embedding of the `trashmap` header-only C library: an open-addressed,
linear-probing hash table mapping C strings to C strings, backed by an
append-only item arena.

Modelling conventions:

* A C string is modelled by the list of its bytes before the terminating NUL,
  as `List Nat`.  A well-formed C string (`CStr`) has every byte nonzero and
  below 256.
* A nullable `const char *` value is `Option (List Nat)` (`none` = `NULL`).
* 32-bit unsigned arithmetic is `Nat` with explicit reduction `% 2 ^ 32`
  (the function `u32`).
* The item arena `items` is modelled as a list of length `capacity`; cells at
  indices `≥ count` hold unspecified ("junk") contents, exactly as after
  `malloc`/`realloc` in C.  `realloc` growth appends junk cells, preserving
  the live prefix at its indices.
* `memset(slots, 0xFF, ...)` makes every slot `{hash = 0xFFFFFFFF,
  index = 0xFFFFFFFF}`; `index = UINT32_MAX` is the empty-slot sentinel.
* The `do { ... } while (idx != start)` probe loops execute their body at most
  `slot_count` times (the index walks `(start + k) % slot_count` and is back at
  `start` after exactly `slot_count` steps); they are modelled by structural
  recursion on a fuel argument initialised to `slot_count`, with fuel
  exhaustion mapped to the loop's fall-through (wraparound) exit.
* The C code stores probe indices in `uint32_t`; the model uses `Nat`, which
  agrees with the C behaviour whenever `slot_count ≤ 2 ^ 32` (the structure is
  in any case documented to hold strictly fewer than `2 ^ 32 - 1` items, since
  `UINT32_MAX` is reserved as the empty sentinel).
-/

/-- Reduction `% 2 ^ 32` of of 32-bit unsigned arithmetic. -/
def u32 (x : Nat) : Nat := x % 2 ^ 32

/-- The value `UINT32_MAX`, the empty-slot sentinel of the slot table. -/
def U32MAX : Nat := 2 ^ 32 - 1

/-- A well-formed C-string body: every byte is nonzero (the NUL terminator is
implicit and not part of the list) and fits in a byte. -/
def CStr (s : List Nat) : Prop := ∀ b ∈ s, 0 < b ∧ b < 256

instance (s : List Nat) : Decidable (CStr s) := List.decidableBAll _ s

/-- Structure `trashmap_slot_t`: a probe slot holding a 32-bit hash and a 32-bit item
index (`U32MAX` = empty). -/
structure trashmap_slot_t where
  hash : Nat
  index : Nat
deriving DecidableEq, Repr

/-- Structure `trashmap_item_t`: an arena entry: borrowed key and (nullable) value. -/
structure trashmap_item_t where
  key : List Nat
  value : Option (List Nat)
deriving DecidableEq, Repr

/-- Structure `trashmap_t`: slot array, item arena, and the three size fields. -/
structure trashmap_t where
  slots : List trashmap_slot_t
  items : List trashmap_item_t
  slot_count : Nat
  count : Nat
  capacity : Nat
deriving DecidableEq, Repr

/-- The all-0xFF slot produced by `memset(slots, 0xFF, ...)`: empty. -/
def emptySlot : trashmap_slot_t := ⟨U32MAX, U32MAX⟩

/-- Unspecified contents of a not-yet-live arena cell (fresh `malloc`/`realloc`
memory is never read by the code under the representation invariant). -/
def junkItem : trashmap_item_t := ⟨[], none⟩

/-- Read the slot at `idx` (all reads are in bounds under the invariant). -/
def slotAt (m : trashmap_t) (idx : Nat) : trashmap_slot_t :=
  m.slots.getD idx emptySlot

/-- Read the arena cell at `idx` (in bounds under the invariant). -/
def itemAt (m : trashmap_t) (idx : Nat) : trashmap_item_t :=
  m.items.getD idx junkItem

/-- Function `trashmap_hash`: FNV-1a as implemented, with the multiplication by the FNV
prime written as the source's shift-add chain
`hash + (hash<<1) + (hash<<4) + (hash<<7) + (hash<<8) + (hash<<24)`,
every shift and the running sum reduced to 32 bits as in C `uint32_t`
arithmetic (the chain of `uint32_t` additions collapses to one outer `u32`). -/
def trashmap_hash (key : List Nat) : Nat :=
  key.foldl (fun hash b =>
    let h := hash ^^^ b
    u32 (h + u32 (h <<< 1) + u32 (h <<< 4) + u32 (h <<< 7) + u32 (h <<< 8) +
      u32 (h <<< 24))) 2166136261

/-- FNV-1a as the spec words it (refinement reference for the hash claim):
offset basis 2166136261; per byte, XOR the byte into the hash and multiply by
the prime 16777619 with 32-bit wraparound. -/
def fnv1a_spec (key : List Nat) : Nat :=
  key.foldl (fun hash b => u32 ((hash ^^^ b) * 16777619)) 2166136261

/-- Function `trashmap_strcmp`: the source's loop compares bytes while both strings
have not reached NUL, returning `*rhs - *lhs` at the first difference, and
returns `*rhs - *lhs` at loop exit (one side at NUL contributes 0). -/
def trashmap_strcmp : List Nat → List Nat → Int
  | a :: as, b :: bs =>
    if (b : Int) - (a : Int) ≠ 0 then (b : Int) - (a : Int)
    else trashmap_strcmp as bs
  | [], b :: _ => (b : Int)
  | a :: _, [] => -(a : Int)
  | [], [] => 0

/-- Function `trashmap_init`: allocate `count` slots, `memset` them to 0xFF (every slot
empty), no arena (`items = NULL`, `count = capacity = 0`).  The C code asserts
`count ≥ 1`; theorems carry that as a hypothesis. -/
def trashmap_init (count : Nat) : trashmap_t :=
  { slots := List.replicate count emptySlot
    items := []
    slot_count := count
    count := 0
    capacity := 0 }

/-- Function `trashmap_clear`: zero `count` and re-`memset` the slot array to 0xFF;
everything else (arena contents, `capacity`, `slot_count`) is untouched. -/
def trashmap_clear (m : trashmap_t) : trashmap_t :=
  { m with count := 0, slots := List.replicate m.slot_count emptySlot }

/-- Probe loop of `trashmap_get`, by fuel (initialised to `slot_count`; fuel
exhaustion is the `while (idx != start)` wraparound exit returning `NULL`). -/
def getAux (m : trashmap_t) (hash : Nat) (key : List Nat) :
    Nat → Nat → Option (List Nat)
  | _, 0 => none
  | idx, fuel + 1 =>
    let bhash := (slotAt m idx).hash
    let bidx := (slotAt m idx).index
    if bidx = U32MAX then none
    else if bhash = hash ∧ trashmap_strcmp key (itemAt m bidx).key = 0 then
      (itemAt m bidx).value
    else getAux m hash key ((idx + 1) % m.slot_count) fuel

/-- Function `trashmap_get`: returns the stored value pointer on a hit (possibly
`NULL` = `none`), `NULL` when the probe reaches an empty slot or wraps. -/
def trashmap_get (m : trashmap_t) (key : List Nat) : Option (List Nat) :=
  let hash := trashmap_hash key
  getAux m hash key (hash % m.slot_count) m.slot_count

/-- Probe loop of `trashmap_has`, by fuel (exhaustion = wraparound exit). -/
def hasAux (m : trashmap_t) (hash : Nat) (key : List Nat) :
    Nat → Nat → Bool
  | _, 0 => false
  | idx, fuel + 1 =>
    let bhash := (slotAt m idx).hash
    let bidx := (slotAt m idx).index
    if bidx = U32MAX then false
    else if bhash = hash ∧ trashmap_strcmp key (itemAt m bidx).key = 0 then
      true
    else hasAux m hash key ((idx + 1) % m.slot_count) fuel

/-- Function `trashmap_has`. -/
def trashmap_has (m : trashmap_t) (key : List Nat) : Bool :=
  let hash := trashmap_hash key
  hasAux m hash key (hash % m.slot_count) m.slot_count

/-- The capacity-doubling loop `while (count + extra > capacity) capacity *= 2`
of `trashmap_reserve`, by fuel.  All call sites start from `cap ≥ 1` (16 when
the capacity was 0), where fuel `need` provably suffices to reach
`cap ≥ need`, so the fueled loop agrees with the C loop (which does not
terminate at `cap = 0`). -/
def growCapLoop : Nat → Nat → Nat → Nat
  | 0, _, cap => cap
  | fuel + 1, need, cap => if cap < need then growCapLoop fuel need (cap * 2) else cap

/-- The rehash placement loop of `trashmap_reserve`: linear-probe the new slot
array from `s.hash % n2` to the first empty slot and store `s` there; fuel
(initialised to `n2`) models the `do/while` wraparound exit, which abandons
the slot (unreachable under the invariant). -/
def probePlace (ns : List trashmap_slot_t) (n2 : Nat) (s : trashmap_slot_t) :
    Nat → Nat → List trashmap_slot_t
  | _, 0 => ns
  | idx, fuel + 1 =>
    if (ns.getD idx emptySlot).index = U32MAX then ns.set idx s
    else probePlace ns n2 s ((idx + 1) % n2) fuel

/-- Arena-growth step of `trashmap_reserve`: if `count + extra > capacity`,
double the capacity (from a floor of 16 when it is zero) until sufficient and
`realloc` the arena — the live cells keep their indices, the new cells hold
unspecified contents. -/
def trashmap_reserve_arena (m : trashmap_t) (extra : Nat) : trashmap_t :=
  if m.capacity < m.count + extra then
    let newCap := growCapLoop (m.count + extra) (m.count + extra)
      (if m.capacity = 0 then 16 else m.capacity)
    { m with
      capacity := newCap
      items := m.items ++ List.replicate (newCap - m.items.length) junkItem }
  else m

/-- One iteration of the rehash loop: skip an empty old slot, else re-insert
it into the new array by linear probing from `hash % n2`. -/
def rehashStep (n2 : Nat) (ns : List trashmap_slot_t) (s : trashmap_slot_t) :
    List trashmap_slot_t :=
  if s.index = U32MAX then ns
  else probePlace ns n2 s (s.hash % n2) n2

/-- The rehash of `trashmap_reserve`: a fresh all-empty array of `n2` slots
into which every non-empty old slot is re-inserted (in slot order) by linear
probing from `hash % n2`. -/
def rehashSlots (old : List trashmap_slot_t) (n2 : Nat) : List trashmap_slot_t :=
  old.foldl (rehashStep n2) (List.replicate n2 emptySlot)

/-- Slot-table growth step of `trashmap_reserve`: if `count + extra` exceeds
75% of `slot_count`, double `slot_count` (once) and rehash. -/
def trashmap_reserve_slots (m : trashmap_t) (extra : Nat) : trashmap_t :=
  if m.slot_count * 3 / 4 < m.count + extra then
    { m with
      slots := rehashSlots m.slots (m.slot_count * 2)
      slot_count := m.slot_count * 2 }
  else m

/-- Function `trashmap_reserve`: the two growth checks of the source, performed in
order (arena first, then slot table). -/
def trashmap_reserve (m : trashmap_t) (extra : Nat) : trashmap_t :=
  trashmap_reserve_slots (trashmap_reserve_arena m extra) extra

/-- Probe loop of `trashmap_set`, by fuel.  Fuel exhaustion models the full
wraparound that triggers the fatal `"corrupted hash map"` assertion, hence the
`Option` result (`none` = assertion fired).  An empty slot appends the item at
arena cell `count` (the stored index is the C cast `(uint32_t)count`); a
hash-and-byte-equal match overwrites only that item's value in place. -/
def setAux (m : trashmap_t) (key : List Nat) (value : Option (List Nat))
    (hash : Nat) : Nat → Nat → Option trashmap_t
  | _, 0 => none
  | idx, fuel + 1 =>
    let item_idx := (slotAt m idx).index
    let item_hash := (slotAt m idx).hash
    if item_idx = U32MAX then
      some { m with
        items := m.items.set m.count ⟨key, value⟩
        slots := m.slots.set idx ⟨hash, u32 m.count⟩
        count := m.count + 1 }
    else if item_hash = hash ∧ trashmap_strcmp key (itemAt m item_idx).key = 0 then
      some { m with
        items := m.items.set item_idx ⟨(itemAt m item_idx).key, value⟩ }
    else setAux m key value hash ((idx + 1) % m.slot_count) fuel

/-- Function `trashmap_set`: reserve room for one more item, then probe from
`hash % slot_count`. -/
def trashmap_set (m : trashmap_t) (key : List Nat) (value : Option (List Nat)) :
    Option trashmap_t :=
  let m1 := trashmap_reserve m 1
  let hash := trashmap_hash key
  setAux m1 key value hash (hash % m1.slot_count) m1.slot_count

/-! ## Derived definitions: probe arithmetic, invariant, abstract model -/

/-- The slot index visited by the `k`-th probe step from `start`
(`uint32_t idx` walking `idx = (idx + 1) % slot_count`). -/
def probeIdx (n start k : Nat) : Nat := (start + k) % n

/-- Number of non-empty slots in a slot array. -/
def nonemptyCount (slots : List trashmap_slot_t) : Nat :=
  (slots.filter (fun s => s.index != U32MAX)).length

/-- The key hashed to `h` and stored at arena index `i` is reachable by the
probe: some probe step `k` from `h % n` lands on the slot `⟨h, i⟩`, and every
earlier probed slot is non-empty (so no lookup stops early at an empty slot). -/
def FindableSlots (slots : List trashmap_slot_t) (n h i : Nat) : Prop :=
  ∃ k, k < n ∧ slots.getD (probeIdx n (h % n) k) emptySlot = ⟨h, i⟩ ∧
    ∀ j, j < k → (slots.getD (probeIdx n (h % n) j) emptySlot).index ≠ U32MAX

/-- The representation invariant of a `trashmap_t` (holds after
`trashmap_init` and is preserved by every public operation):
array lengths match the size fields; at least one slot; `count ≤ capacity`;
the 75% load-factor ceiling; `count` below the `UINT32_MAX` sentinel;
exactly `count` non-empty slots; every non-empty slot holds a valid arena
index and the hash of that item's key; live keys are well-formed C strings and
pairwise distinct; and every live item is findable by linear probing. -/
def TmInv (m : trashmap_t) : Prop :=
  m.slots.length = m.slot_count ∧
  m.items.length = m.capacity ∧
  1 ≤ m.slot_count ∧
  m.count ≤ m.capacity ∧
  m.count ≤ m.slot_count * 3 / 4 ∧
  m.count < U32MAX ∧
  nonemptyCount m.slots = m.count ∧
  (∀ s ∈ m.slots, s.index ≠ U32MAX →
    s.index < m.count ∧ s.hash = trashmap_hash (itemAt m s.index).key) ∧
  (∀ i, i < m.count → CStr (itemAt m i).key) ∧
  (∀ i, i < m.count → ∀ j, j < m.count →
    (itemAt m i).key = (itemAt m j).key → i = j) ∧
  (∀ i, i < m.count →
    FindableSlots m.slots m.slot_count (trashmap_hash (itemAt m i).key) i)

instance (slots : List trashmap_slot_t) (n h i : Nat) :
    Decidable (FindableSlots slots n h i) := by
  unfold FindableSlots; infer_instance

instance (m : trashmap_t) : Decidable (TmInv m) := by
  unfold TmInv; infer_instance

/-- The abstract contents of the table: the association list of live arena
entries in insertion order (`itemAt m i` is the `i`-th pair). -/
def Model (m : trashmap_t) (l : List (List Nat × Option (List Nat))) : Prop :=
  m.count = l.length ∧
  ∀ i, i < l.length →
    itemAt m i = ⟨(l.getD i ([], none)).1, (l.getD i ([], none)).2⟩

/-- A mutating public operation of the map. -/
inductive MapOp where
  | set (key : List Nat) (value : Option (List Nat)) : MapOp
  | reserve (extra : Nat) : MapOp
  | clear : MapOp
deriving DecidableEq, Repr

/-- Apply one operation (`none` = the fatal wraparound assertion fired). -/
def applyOp (m : trashmap_t) : MapOp → Option trashmap_t
  | .set k v => trashmap_set m k v
  | .reserve e => some (trashmap_reserve m e)
  | .clear => some (trashmap_clear m)

/-- Run a sequence of operations. -/
def runOps (m : trashmap_t) : List MapOp → Option trashmap_t
  | [] => some m
  | op :: rest => (applyOp m op).bind (fun m1 => runOps m1 rest)

/-- Specification-level effect of `set` on the association list (from the
spec's wording of update/insert semantics): overwrite the value of an
existing key in place, otherwise append the new pair. -/
def absSet (l : List (List Nat × Option (List Nat))) (k : List Nat)
    (v : Option (List Nat)) : List (List Nat × Option (List Nat)) :=
  if l.any (fun p => p.1 == k) then
    l.map (fun p => if p.1 == k then (p.1, v) else p)
  else l ++ [(k, v)]

/-- Specification-level effect of one operation on the association list. -/
def absOp (l : List (List Nat × Option (List Nat))) :
    MapOp → List (List Nat × Option (List Nat))
  | .set k v => absSet l k v
  | .reserve _ => l
  | .clear => []

/-- Specification-level run of a sequence of operations. -/
def runAbs (l : List (List Nat × Option (List Nat))) :
    List MapOp → List (List Nat × Option (List Nat))
  | [] => l
  | op :: rest => runAbs (absOp l op) rest

/-- Keys appearing in `set` operations are well-formed C strings. -/
def opKeyOK : MapOp → Bool
  | .set k _ => decide (CStr k)
  | _ => true

/-- Number of `set` operations in a list (bounds the reachable `count`). -/
def setOpCount (ops : List MapOp) : Nat :=
  (ops.filter (fun op => match op with | .set _ _ => true | _ => false)).length

/-- Run a list of `set` calls (the operation sequence of the round-trip and
growth claims). -/
def runSets (m : trashmap_t) :
    List (List Nat × Option (List Nat)) → Option trashmap_t
  | [] => some m
  | p :: rest => (trashmap_set m p.1 p.2).bind (fun m1 => runSets m1 rest)

/-- The probe loop of `trashmap_get` run with an arbitrary fuel bound instead
of `slot_count` (for the termination claim). -/
def trashmap_getFuel (m : trashmap_t) (key : List Nat) (fuel : Nat) :
    Option (List Nat) :=
  let hash := trashmap_hash key
  getAux m hash key (hash % m.slot_count) fuel

/-- The probe loop of `trashmap_has` run with an arbitrary fuel bound. -/
def trashmap_hasFuel (m : trashmap_t) (key : List Nat) (fuel : Nat) : Bool :=
  let hash := trashmap_hash key
  hasAux m hash key (hash % m.slot_count) fuel

/-- The probe loop of `get`/`has` stops at position `q`: the slot is empty, or
its hash matches and its item's key compares byte-equal. -/
def probeStop (m : trashmap_t) (h : Nat) (key : List Nat) (q : Nat) : Prop :=
  (slotAt m q).index = U32MAX ∨
    ((slotAt m q).hash = h ∧
      trashmap_strcmp key (itemAt m (slotAt m q).index).key = 0)

instance (m : trashmap_t) (h : Nat) (key : List Nat) (q : Nat) :
    Decidable (probeStop m h key q) := by
  unfold probeStop; infer_instance

/-- The value the loop of `trashmap_get` returns when it stops at position `q`. -/
def probeStopVal (m : trashmap_t) (q : Nat) : Option (List Nat) :=
  if (slotAt m q).index = U32MAX then none
  else (itemAt m (slotAt m q).index).value

/-- The value the loop of `trashmap_has` returns when it stops at position `q`. -/
def probeStopHas (m : trashmap_t) (q : Nat) : Bool :=
  if (slotAt m q).index = U32MAX then false else true

/-! ## Byte-string comparison -/

theorem trashmap_strcmp_self (a : List Nat) : trashmap_strcmp a a = 0 := by
  induction a with
  | nil => rfl
  | cons x xs ih => simpa [trashmap_strcmp] using ih

theorem trashmap_strcmp_eq_zero_iff {a b : List Nat} (ha : CStr a) (hb : CStr b) :
    trashmap_strcmp a b = 0 ↔ a = b := by
  induction a generalizing b with
  | nil =>
    cases b with
    | nil => simp [trashmap_strcmp]
    | cons y ys =>
      have hy := (hb y (by simp)).1
      simp [trashmap_strcmp]
      omega
  | cons x xs ih =>
    cases b with
    | nil =>
      have hx := (ha x (by simp)).1
      simp [trashmap_strcmp]
      omega
    | cons y ys =>
      have ha' : CStr xs := fun c hc => ha c (by simp [hc])
      have hb' : CStr ys := fun c hc => hb c (by simp [hc])
      by_cases hxy : (y : Int) - (x : Int) = 0
      · have : x = y := by omega
        simp [trashmap_strcmp, hxy, this, ih ha' hb']
      · simp only [trashmap_strcmp, if_pos hxy]
        constructor
        · intro h; omega
        · intro h
          injection h with h1 h2
          omega

/-! ## Hash function -/

theorem trashmap_hash_step (x : Nat) :
    u32 (x + u32 (x <<< 1) + u32 (x <<< 4) + u32 (x <<< 7) + u32 (x <<< 8) +
      u32 (x <<< 24)) = u32 (x * 16777619) := by
  simp only [u32, Nat.shiftLeft_eq]
  norm_num
  omega

/-- C6: for every key, the implemented hash (shift-add chain, 32-bit
wraparound) equals the FNV-1a reference definition (XOR the byte, then
multiply by 16777619 modulo 2^32); the hash is a function of the key, hence
deterministic across calls. -/
theorem foldl_step_congr (f g : Nat → Nat → Nat) (hfg : ∀ x y, f x y = g x y) :
    ∀ (l : List Nat) (a : Nat), l.foldl f a = l.foldl g a := by
  intro l
  induction l with
  | nil => intro a; rfl
  | cons b bs ih => intro a; simp only [List.foldl_cons, hfg]; exact ih _

theorem trashmap_hash_eq_fnv1a_spec (key : List Nat) :
    trashmap_hash key = fnv1a_spec key :=
  foldl_step_congr _ _ (fun x y => trashmap_hash_step (x ^^^ y)) key 2166136261

/-- C4 (code bug): `trashmap_strcmp` is documented as a reimplementation of
libc `strcmp`, under which `strcmp("abc", "abd") < 0`; the implementation
returns `*rhs - *lhs` instead of `*lhs - *rhs`, so on the bytes of `"abc"` and
`"abd"` it evaluates to `+1` — positive, not negative.  (Equal strings do
compare equal: `trashmap_strcmp_self`.) -/
theorem trashmap_strcmp_abc_abd_positive :
    trashmap_strcmp [97, 98, 99] [97, 98, 100] = 1 ∧
      trashmap_strcmp [97, 98, 99] [97, 98, 99] = 0 := by
  constructor <;> decide

/-- C10: a key stored with a `NULL` value (here the one-byte key `"a"` in a
table initialised with 4 slots) makes `trashmap_get` return `NULL` — the same
sentinel as for the absent key `"b"` — while `trashmap_has` returns `true`. -/
theorem get_null_value_indistinguishable_from_absent :
    (trashmap_set (trashmap_init 4) [97] none).map (fun m =>
      (trashmap_get m [97], trashmap_has m [97], trashmap_get m [98])) =
    some (none, true, none) := by
  decide

/-! ## List helpers -/

theorem getD_set_self {α : Type} (l : List α) (i : Nat) (a d : α)
    (h : i < l.length) : (l.set i a).getD i d = a := by
  induction l generalizing i with
  | nil => simp at h
  | cons x xs ih =>
    cases i with
    | zero => rfl
    | succ n => exact ih n (by simpa using h)

theorem getD_set_ne {α : Type} (l : List α) (i j : Nat) (a d : α) (h : i ≠ j) :
    (l.set i a).getD j d = l.getD j d := by
  induction l generalizing i j with
  | nil => rfl
  | cons x xs ih =>
    cases i with
    | zero =>
      cases j with
      | zero => exact absurd rfl h
      | succ k => rfl
    | succ n =>
      cases j with
      | zero => rfl
      | succ k => exact ih n k (by omega)

theorem getD_append_left {α : Type} (l l2 : List α) (i : Nat) (d : α)
    (h : i < l.length) : (l ++ l2).getD i d = l.getD i d := by
  induction l generalizing i with
  | nil => simp at h
  | cons x xs ih =>
    cases i with
    | zero => rfl
    | succ n => exact ih n (by simpa using h)

theorem getD_replicate {α : Type} (n i : Nat) (a d : α) (h : i < n) :
    (List.replicate n a).getD i d = a := by
  induction n generalizing i with
  | zero => omega
  | succ k ih =>
    cases i with
    | zero => rfl
    | succ j => exact ih j (by omega)

theorem getD_mem {α : Type} (l : List α) (i : Nat) (d : α) (h : i < l.length) :
    l.getD i d ∈ l := by
  induction l generalizing i with
  | nil => simp at h
  | cons x xs ih =>
    cases i with
    | zero => exact List.mem_cons_self x xs
    | succ n => exact List.mem_cons_of_mem _ (ih n (by simpa using h))

theorem length_filter_set_true {α : Type} (p : α → Bool) (l : List α) (i : Nat)
    (a d : α) (hi : i < l.length) (hold : p (l.getD i d) = false)
    (hnew : p a = true) :
    (List.filter p (l.set i a)).length = (List.filter p l).length + 1 := by
  induction l generalizing i with
  | nil => simp at hi
  | cons x xs ih =>
    cases i with
    | zero =>
      have hx : p x = false := hold
      simp [List.filter_cons, hx, hnew]
    | succ n =>
      have hrec := ih n (by simpa using hi) hold
      cases hpx : p x <;> simp [List.filter_cons, hpx, hrec]

theorem exists_false_of_filter_length_lt {α : Type} (p : α → Bool)
    (l : List α) (d : α) (h : (List.filter p l).length < l.length) :
    ∃ i, i < l.length ∧ p (l.getD i d) = false := by
  induction l with
  | nil => simp at h
  | cons x xs ih =>
    cases hpx : p x with
    | false => exact ⟨0, by simp, hpx⟩
    | true =>
      have hlt : (List.filter p xs).length < xs.length := by
        simp only [List.filter_cons, hpx, if_true, List.length_cons] at h
        simpa using h
      obtain ⟨i, hi, hf⟩ := ih hlt
      exact ⟨i + 1, by simp [Nat.succ_lt_succ hi], hf⟩

/-! ## Probe-index arithmetic -/

theorem probeIdx_lt (n start k : Nat) (hn : 0 < n) : probeIdx n start k < n :=
  Nat.mod_lt _ hn

theorem probeIdx_zero (n start : Nat) (h : start < n) :
    probeIdx n start 0 = start := by
  simp [probeIdx, Nat.mod_eq_of_lt h]

theorem probeIdx_succ (n start k : Nat) :
    probeIdx n start (k + 1) = probeIdx n ((start + 1) % n) k := by
  have h1 : start + (k + 1) = start + 1 + k := by omega
  simp [probeIdx, h1, Nat.mod_add_mod]

theorem probeIdx_inj (n start : Nat) {i j : Nat} (hi : i < n) (hj : j < n)
    (h : probeIdx n start i = probeIdx n start j) : i = j := by
  unfold probeIdx at h
  have h2 : i % n = j % n := Nat.ModEq.add_left_cancel' start h
  rwa [Nat.mod_eq_of_lt hi, Nat.mod_eq_of_lt hj] at h2

theorem probeIdx_surj (n start p : Nat) (hp : p < n) (hs : start < n) :
    ∃ j, j < n ∧ probeIdx n start j = p := by
  refine ⟨(n - start + p) % n, Nat.mod_lt _ (by omega), ?_⟩
  unfold probeIdx
  rw [Nat.add_mod_mod]
  have h1 : start + (n - start + p) = n + p := by omega
  rw [h1, Nat.add_mod_left, Nat.mod_eq_of_lt hp]

/-! ## Capacity growth -/

theorem growCapLoop_ge (fuel : Nat) : ∀ need cap, 0 < cap →
    need ≤ cap * 2 ^ fuel → need ≤ growCapLoop fuel need cap := by
  induction fuel with
  | zero =>
    intro need cap h1 h2
    simpa [growCapLoop] using h2
  | succ f ih =>
    intro need cap h1 h2
    unfold growCapLoop
    split
    · have h3 : cap * 2 ^ (f + 1) = cap * 2 * 2 ^ f := by ring
      rw [h3] at h2
      exact ih need (cap * 2) (by omega) h2
    · omega

theorem growCapLoop_ge_self (fuel : Nat) : ∀ need cap,
    cap ≤ growCapLoop fuel need cap := by
  induction fuel with
  | zero => intro need cap; simp [growCapLoop]
  | succ f ih =>
    intro need cap
    unfold growCapLoop
    split
    · calc cap ≤ cap * 2 := by omega
        _ ≤ growCapLoop f need (cap * 2) := ih need (cap * 2)
    · exact Nat.le_refl cap

theorem le_growCapLoop_full (need cap : Nat) (h : 0 < cap) :
    need ≤ growCapLoop need need cap := by
  apply growCapLoop_ge need need cap h
  calc need ≤ 2 ^ need := Nat.le_of_lt (Nat.lt_two_pow need)
    _ ≤ cap * 2 ^ need := Nat.le_mul_of_pos_left _ h

/-! ## `trashmap_reserve`: field-level facts -/

theorem reserve_arena_count (m : trashmap_t) (extra : Nat) :
    (trashmap_reserve_arena m extra).count = m.count := by
  unfold trashmap_reserve_arena; split <;> rfl

theorem reserve_arena_slots (m : trashmap_t) (extra : Nat) :
    (trashmap_reserve_arena m extra).slots = m.slots := by
  unfold trashmap_reserve_arena; split <;> rfl

theorem reserve_arena_slot_count (m : trashmap_t) (extra : Nat) :
    (trashmap_reserve_arena m extra).slot_count = m.slot_count := by
  unfold trashmap_reserve_arena; split <;> rfl

theorem reserve_arena_capacity_ge (m : trashmap_t) (extra : Nat) :
    m.count + extra ≤ (trashmap_reserve_arena m extra).capacity := by
  unfold trashmap_reserve_arena
  split
  case isTrue h =>
    apply le_growCapLoop_full
    split <;> omega
  case isFalse h => omega

theorem reserve_arena_capacity_ge_old (m : trashmap_t) (extra : Nat) :
    m.capacity ≤ (trashmap_reserve_arena m extra).capacity := by
  unfold trashmap_reserve_arena
  split
  case isTrue h =>
    calc m.capacity ≤ if m.capacity = 0 then 16 else m.capacity := by
          split <;> omega
      _ ≤ _ := growCapLoop_ge_self _ _ _
  case isFalse h => exact Nat.le_refl _

theorem reserve_arena_itemAt (m : trashmap_t) (extra : Nat) (i : Nat)
    (h : i < m.items.length) :
    itemAt (trashmap_reserve_arena m extra) i = itemAt m i := by
  unfold itemAt trashmap_reserve_arena
  split
  · exact getD_append_left _ _ _ _ h
  · rfl

theorem reserve_arena_items_length (m : trashmap_t) (extra : Nat)
    (hlen : m.items.length = m.capacity) :
    (trashmap_reserve_arena m extra).items.length =
      (trashmap_reserve_arena m extra).capacity := by
  have hge := reserve_arena_capacity_ge_old m extra
  unfold trashmap_reserve_arena at hge ⊢
  by_cases h : m.capacity < m.count + extra
  · simp only [if_pos h] at hge ⊢
    simp only [List.length_append, List.length_replicate]
    omega
  · simp only [if_neg h]
    exact hlen

theorem reserve_slots_count (m : trashmap_t) (extra : Nat) :
    (trashmap_reserve_slots m extra).count = m.count := by
  unfold trashmap_reserve_slots; split <;> rfl

theorem reserve_slots_capacity (m : trashmap_t) (extra : Nat) :
    (trashmap_reserve_slots m extra).capacity = m.capacity := by
  unfold trashmap_reserve_slots; split <;> rfl

theorem reserve_slots_items (m : trashmap_t) (extra : Nat) :
    (trashmap_reserve_slots m extra).items = m.items := by
  unfold trashmap_reserve_slots; split <;> rfl

theorem reserve_slots_slot_count (m : trashmap_t) (extra : Nat) :
    (trashmap_reserve_slots m extra).slot_count =
      if m.slot_count * 3 / 4 < m.count + extra then m.slot_count * 2
      else m.slot_count := by
  unfold trashmap_reserve_slots; split <;> simp_all

theorem reserve_count (m : trashmap_t) (extra : Nat) :
    (trashmap_reserve m extra).count = m.count := by
  unfold trashmap_reserve
  rw [reserve_slots_count, reserve_arena_count]

theorem reserve_capacity_ge (m : trashmap_t) (extra : Nat) :
    m.count + extra ≤ (trashmap_reserve m extra).capacity := by
  unfold trashmap_reserve
  rw [reserve_slots_capacity]
  exact reserve_arena_capacity_ge m extra

theorem reserve_slot_count (m : trashmap_t) (extra : Nat) :
    (trashmap_reserve m extra).slot_count =
      if m.slot_count * 3 / 4 < m.count + extra then m.slot_count * 2
      else m.slot_count := by
  unfold trashmap_reserve
  rw [reserve_slots_slot_count, reserve_arena_count, reserve_arena_slot_count]

theorem reserve_one_load (m : trashmap_t) (hn : 1 ≤ m.slot_count)
    (hload : m.count ≤ m.slot_count * 3 / 4) :
    m.count + 1 ≤ (trashmap_reserve m 1).slot_count * 3 / 4 := by
  rw [reserve_slot_count m 1]
  split <;> omega

/-- C5 counterexample: `trashmap_reserve` doubles the slot table at most once
per call, so reserving `extra = 100` on a table freshly initialised with 4
slots leaves `slot_count = 8`, and `count + extra = 100` exceeds
`slot_count * 3 / 4 = 6` — refuting the claim that after `reserve`,
`count + extra` never exceeds `slot_count * 3 / 4`. -/
theorem reserve_load_target_counterexample :
    (trashmap_reserve (trashmap_init 4) 100).slot_count = 8 ∧
    (trashmap_reserve (trashmap_init 4) 100).slot_count * 3 / 4 <
      (trashmap_reserve (trashmap_init 4) 100).count + 100 := by
  decide

/-- C5 amended: after `trashmap_reserve m extra` (for a table obeying the
load-factor invariant with at least one slot), `count` is unchanged and
`count + extra ≤ capacity` (capacity grown from a floor of 16 by repeated
doubling when insufficient); the slot table doubles exactly once when
`count + extra` exceeds `slot_count * 3 / 4` (so that bound on `count + extra`
is re-established only when one doubling suffices — in particular always for
`extra = 1`, the reservation `trashmap_set` performs). -/
theorem reserve_spec_amended (m : trashmap_t) (extra : Nat)
    (hn : 1 ≤ m.slot_count) (hload : m.count ≤ m.slot_count * 3 / 4) :
    (trashmap_reserve m extra).count = m.count ∧
    m.count + extra ≤ (trashmap_reserve m extra).capacity ∧
    (trashmap_reserve m extra).slot_count =
      (if m.slot_count * 3 / 4 < m.count + extra then m.slot_count * 2
       else m.slot_count) ∧
    (extra = 1 → m.count + 1 ≤ (trashmap_reserve m extra).slot_count * 3 / 4) := by
  refine ⟨reserve_count m extra, reserve_capacity_ge m extra,
    reserve_slot_count m extra, ?_⟩
  intro he
  subst he
  exact reserve_one_load m hn hload

/-- Witness for `reserve_spec_amended` at a concrete table. -/
theorem reserve_spec_amended_witness :
    (trashmap_reserve (trashmap_init 4) 1).count = 0 ∧
    0 + 1 ≤ (trashmap_reserve (trashmap_init 4) 1).capacity ∧
    (trashmap_reserve (trashmap_init 4) 1).slot_count =
      (if 4 * 3 / 4 < 0 + 1 then 4 * 2 else 4) ∧
    (1 = 1 → 0 + 1 ≤ (trashmap_reserve (trashmap_init 4) 1).slot_count * 3 / 4) :=
  reserve_spec_amended (trashmap_init 4) 1 (by decide) (by decide)

/-! ## Lookup correctness -/

theorem getAux_found (m : trashmap_t) (key : List Nat) (i : Nat)
    (hInv : TmInv m) (hk : CStr key) (hi : i < m.count)
    (hkey : (itemAt m i).key = key) :
    ∀ w idx fuel, idx < m.slot_count → w < fuel →
      slotAt m (probeIdx m.slot_count idx w) = ⟨trashmap_hash key, i⟩ →
      (∀ j, j < w → (slotAt m (probeIdx m.slot_count idx j)).index ≠ U32MAX) →
      getAux m (trashmap_hash key) key idx fuel = (itemAt m i).value := by
  obtain ⟨hslen, hilen, hn, hcap, hload, hcnt, hne, hvalid, hcstr, hinj, hfnd⟩ :=
    hInv
  have hiU : i ≠ U32MAX := Nat.ne_of_lt (Nat.lt_trans hi hcnt)
  intro w
  induction w with
  | zero =>
    intro idx fuel hidx hwf hwit _
    cases fuel with
    | zero => omega
    | succ f =>
      rw [probeIdx_zero _ _ hidx] at hwit
      have hcmp : trashmap_strcmp key (itemAt m i).key = 0 := by
        rw [hkey]; exact trashmap_strcmp_self key
      simp only [getAux, hwit, if_neg hiU]
      simp [hcmp]
  | succ w ih =>
    intro idx fuel hidx hwf hwit hpre
    cases fuel with
    | zero => omega
    | succ f =>
      have h0 : (slotAt m idx).index ≠ U32MAX := by
        have := hpre 0 (Nat.succ_pos w)
        rwa [probeIdx_zero _ _ hidx] at this
      have hmem : slotAt m idx ∈ m.slots :=
        getD_mem m.slots idx emptySlot (by omega)
      by_cases hm : (slotAt m idx).hash = trashmap_hash key ∧
          trashmap_strcmp key (itemAt m (slotAt m idx).index).key = 0
      · obtain ⟨hbc, hbh⟩ := hvalid _ hmem h0
        have hkb : key = (itemAt m (slotAt m idx).index).key :=
          (trashmap_strcmp_eq_zero_iff hk (hcstr _ hbc)).mp hm.2
        have hbi : (slotAt m idx).index = i :=
          hinj _ hbc i hi (by rw [← hkb, hkey])
        simp only [getAux, if_neg h0, if_pos hm]
        rw [hbi]
      · simp only [getAux, if_neg h0, if_neg hm]
        apply ih ((idx + 1) % m.slot_count) f
          (Nat.mod_lt _ (by omega)) (by omega)
        · rw [← probeIdx_succ]
          exact hwit
        · intro j hj
          rw [← probeIdx_succ]
          exact hpre (j + 1) (by omega)

theorem getAux_absent (m : trashmap_t) (key : List Nat)
    (hInv : TmInv m) (hk : CStr key)
    (habs : ∀ i, i < m.count → (itemAt m i).key ≠ key) :
    ∀ fuel idx, idx < m.slot_count →
      getAux m (trashmap_hash key) key idx fuel = none := by
  obtain ⟨hslen, hilen, hn, hcap, hload, hcnt, hne, hvalid, hcstr, hinj, hfnd⟩ :=
    hInv
  intro fuel
  induction fuel with
  | zero => intro idx _; rfl
  | succ f ih =>
    intro idx hidx
    by_cases h0 : (slotAt m idx).index = U32MAX
    · simp only [getAux, if_pos h0]
    · have hmem : slotAt m idx ∈ m.slots :=
        getD_mem m.slots idx emptySlot (by omega)
      obtain ⟨hbc, hbh⟩ := hvalid _ hmem h0
      have hm : ¬((slotAt m idx).hash = trashmap_hash key ∧
          trashmap_strcmp key (itemAt m (slotAt m idx).index).key = 0) := by
        rintro ⟨h1, h2⟩
        have hkb : key = (itemAt m (slotAt m idx).index).key :=
          (trashmap_strcmp_eq_zero_iff hk (hcstr _ hbc)).mp h2
        exact habs _ hbc hkb.symm
      simp only [getAux, if_neg h0, if_neg hm]
      exact ih _ (Nat.mod_lt _ (by omega))

theorem hasAux_found (m : trashmap_t) (key : List Nat) (i : Nat)
    (hInv : TmInv m) (hk : CStr key) (hi : i < m.count)
    (hkey : (itemAt m i).key = key) :
    ∀ w idx fuel, idx < m.slot_count → w < fuel →
      slotAt m (probeIdx m.slot_count idx w) = ⟨trashmap_hash key, i⟩ →
      (∀ j, j < w → (slotAt m (probeIdx m.slot_count idx j)).index ≠ U32MAX) →
      hasAux m (trashmap_hash key) key idx fuel = true := by
  obtain ⟨hslen, hilen, hn, hcap, hload, hcnt, hne, hvalid, hcstr, hinj, hfnd⟩ :=
    hInv
  have hiU : i ≠ U32MAX := Nat.ne_of_lt (Nat.lt_trans hi hcnt)
  intro w
  induction w with
  | zero =>
    intro idx fuel hidx hwf hwit _
    cases fuel with
    | zero => omega
    | succ f =>
      rw [probeIdx_zero _ _ hidx] at hwit
      have hcmp : trashmap_strcmp key (itemAt m i).key = 0 := by
        rw [hkey]; exact trashmap_strcmp_self key
      simp only [hasAux, hwit, if_neg hiU]
      simp [hcmp]
  | succ w ih =>
    intro idx fuel hidx hwf hwit hpre
    cases fuel with
    | zero => omega
    | succ f =>
      have h0 : (slotAt m idx).index ≠ U32MAX := by
        have := hpre 0 (Nat.succ_pos w)
        rwa [probeIdx_zero _ _ hidx] at this
      by_cases hm : (slotAt m idx).hash = trashmap_hash key ∧
          trashmap_strcmp key (itemAt m (slotAt m idx).index).key = 0
      · simp only [hasAux, if_neg h0, if_pos hm]
      · simp only [hasAux, if_neg h0, if_neg hm]
        apply ih ((idx + 1) % m.slot_count) f
          (Nat.mod_lt _ (by omega)) (by omega)
        · rw [← probeIdx_succ]
          exact hwit
        · intro j hj
          rw [← probeIdx_succ]
          exact hpre (j + 1) (by omega)

theorem hasAux_absent (m : trashmap_t) (key : List Nat)
    (hInv : TmInv m) (hk : CStr key)
    (habs : ∀ i, i < m.count → (itemAt m i).key ≠ key) :
    ∀ fuel idx, idx < m.slot_count →
      hasAux m (trashmap_hash key) key idx fuel = false := by
  obtain ⟨hslen, hilen, hn, hcap, hload, hcnt, hne, hvalid, hcstr, hinj, hfnd⟩ :=
    hInv
  intro fuel
  induction fuel with
  | zero => intro idx _; rfl
  | succ f ih =>
    intro idx hidx
    by_cases h0 : (slotAt m idx).index = U32MAX
    · simp only [hasAux, if_pos h0]
    · have hmem : slotAt m idx ∈ m.slots :=
        getD_mem m.slots idx emptySlot (by omega)
      obtain ⟨hbc, hbh⟩ := hvalid _ hmem h0
      have hm : ¬((slotAt m idx).hash = trashmap_hash key ∧
          trashmap_strcmp key (itemAt m (slotAt m idx).index).key = 0) := by
        rintro ⟨h1, h2⟩
        have hkb : key = (itemAt m (slotAt m idx).index).key :=
          (trashmap_strcmp_eq_zero_iff hk (hcstr _ hbc)).mp h2
        exact habs _ hbc hkb.symm
      simp only [hasAux, if_neg h0, if_neg hm]
      exact ih _ (Nat.mod_lt _ (by omega))

/-- Under the invariant, `trashmap_get` on a stored key returns that item's
stored value. -/
theorem trashmap_get_found (m : trashmap_t) (key : List Nat) (i : Nat)
    (hInv : TmInv m) (hk : CStr key) (hi : i < m.count)
    (hkey : (itemAt m i).key = key) :
    trashmap_get m key = (itemAt m i).value := by
  have hn : 1 ≤ m.slot_count := hInv.2.2.1
  have hfnd := hInv.2.2.2.2.2.2.2.2.2.2 i hi
  rw [hkey] at hfnd
  obtain ⟨k, hk1, hk2, hk3⟩ := hfnd
  exact getAux_found m key i hInv hk hi hkey k _ m.slot_count
    (Nat.mod_lt _ (by omega)) hk1 hk2 hk3

/-- Under the invariant, `trashmap_get` on an absent key returns `NULL`. -/
theorem trashmap_get_absent (m : trashmap_t) (key : List Nat)
    (hInv : TmInv m) (hk : CStr key)
    (habs : ∀ i, i < m.count → (itemAt m i).key ≠ key) :
    trashmap_get m key = none := by
  have hn : 1 ≤ m.slot_count := hInv.2.2.1
  exact getAux_absent m key hInv hk habs m.slot_count _ (Nat.mod_lt _ (by omega))

/-- Under the invariant, `trashmap_has` on a stored key returns `true`. -/
theorem trashmap_has_found (m : trashmap_t) (key : List Nat) (i : Nat)
    (hInv : TmInv m) (hk : CStr key) (hi : i < m.count)
    (hkey : (itemAt m i).key = key) :
    trashmap_has m key = true := by
  have hn : 1 ≤ m.slot_count := hInv.2.2.1
  have hfnd := hInv.2.2.2.2.2.2.2.2.2.2 i hi
  rw [hkey] at hfnd
  obtain ⟨k, hk1, hk2, hk3⟩ := hfnd
  exact hasAux_found m key i hInv hk hi hkey k _ m.slot_count
    (Nat.mod_lt _ (by omega)) hk1 hk2 hk3

/-- Under the invariant, `trashmap_has` on an absent key returns `false`. -/
theorem trashmap_has_absent (m : trashmap_t) (key : List Nat)
    (hInv : TmInv m) (hk : CStr key)
    (habs : ∀ i, i < m.count → (itemAt m i).key ≠ key) :
    trashmap_has m key = false := by
  have hn : 1 ≤ m.slot_count := hInv.2.2.1
  exact hasAux_absent m key hInv hk habs m.slot_count _ (Nat.mod_lt _ (by omega))

/-! ## Probe termination bounds -/

theorem probeIdx_wrap (n idx : Nat) : probeIdx n idx n = probeIdx n idx 0 := by
  simp [probeIdx, Nat.add_mod_right]

theorem getAux_no_stop (m : trashmap_t) (h : Nat) (key : List Nat)
    (hn : 1 ≤ m.slot_count) :
    ∀ fuel idx, idx < m.slot_count →
      (∀ j, j < m.slot_count → ¬probeStop m h key (probeIdx m.slot_count idx j)) →
      getAux m h key idx fuel = none := by
  intro fuel
  induction fuel with
  | zero => intro idx _ _; rfl
  | succ f ih =>
    intro idx hidx hno
    have h0 := hno 0 (by omega)
    rw [probeIdx_zero _ _ hidx] at h0
    unfold probeStop at h0
    have h01 : (slotAt m idx).index ≠ U32MAX := fun hc => h0 (Or.inl hc)
    have h02 : ¬((slotAt m idx).hash = h ∧
        trashmap_strcmp key (itemAt m (slotAt m idx).index).key = 0) :=
      fun hc => h0 (Or.inr hc)
    simp only [getAux, if_neg h01, if_neg h02]
    apply ih _ (Nat.mod_lt _ (by omega))
    intro j hj
    by_cases hj1 : j + 1 < m.slot_count
    · rw [← probeIdx_succ]
      exact hno (j + 1) hj1
    · have hje : j + 1 = m.slot_count := by omega
      rw [← probeIdx_succ, hje, probeIdx_wrap]
      exact hno 0 (by omega)

theorem hasAux_no_stop (m : trashmap_t) (h : Nat) (key : List Nat)
    (hn : 1 ≤ m.slot_count) :
    ∀ fuel idx, idx < m.slot_count →
      (∀ j, j < m.slot_count → ¬probeStop m h key (probeIdx m.slot_count idx j)) →
      hasAux m h key idx fuel = false := by
  intro fuel
  induction fuel with
  | zero => intro idx _ _; rfl
  | succ f ih =>
    intro idx hidx hno
    have h0 := hno 0 (by omega)
    rw [probeIdx_zero _ _ hidx] at h0
    unfold probeStop at h0
    have h01 : (slotAt m idx).index ≠ U32MAX := fun hc => h0 (Or.inl hc)
    have h02 : ¬((slotAt m idx).hash = h ∧
        trashmap_strcmp key (itemAt m (slotAt m idx).index).key = 0) :=
      fun hc => h0 (Or.inr hc)
    simp only [hasAux, if_neg h01, if_neg h02]
    apply ih _ (Nat.mod_lt _ (by omega))
    intro j hj
    by_cases hj1 : j + 1 < m.slot_count
    · rw [← probeIdx_succ]
      exact hno (j + 1) hj1
    · have hje : j + 1 = m.slot_count := by omega
      rw [← probeIdx_succ, hje, probeIdx_wrap]
      exact hno 0 (by omega)

theorem getAux_stop_at (m : trashmap_t) (h : Nat) (key : List Nat)
    (hn : 1 ≤ m.slot_count) :
    ∀ k idx fuel, idx < m.slot_count → k < fuel →
      (∀ j, j < k → ¬probeStop m h key (probeIdx m.slot_count idx j)) →
      probeStop m h key (probeIdx m.slot_count idx k) →
      getAux m h key idx fuel = probeStopVal m (probeIdx m.slot_count idx k) := by
  intro k
  induction k with
  | zero =>
    intro idx fuel hidx hkf _ hstop
    cases fuel with
    | zero => omega
    | succ f =>
      rw [probeIdx_zero _ _ hidx] at hstop ⊢
      unfold probeStop at hstop
      unfold probeStopVal
      by_cases h0 : (slotAt m idx).index = U32MAX
      · simp only [getAux, if_pos h0]
      · have hm : (slotAt m idx).hash = h ∧
            trashmap_strcmp key (itemAt m (slotAt m idx).index).key = 0 := by
          rcases hstop with h1 | h2
          · exact absurd h1 h0
          · exact h2
        simp only [getAux, if_neg h0, if_pos hm]
  | succ k ih =>
    intro idx fuel hidx hkf hpre hstop
    cases fuel with
    | zero => omega
    | succ f =>
      have h0 := hpre 0 (by omega)
      rw [probeIdx_zero _ _ hidx] at h0
      unfold probeStop at h0
      have h01 : (slotAt m idx).index ≠ U32MAX := fun hc => h0 (Or.inl hc)
      have h02 : ¬((slotAt m idx).hash = h ∧
          trashmap_strcmp key (itemAt m (slotAt m idx).index).key = 0) :=
        fun hc => h0 (Or.inr hc)
      simp only [getAux, if_neg h01, if_neg h02]
      rw [probeIdx_succ] at hstop ⊢
      apply ih _ f (Nat.mod_lt _ (by omega)) (by omega) ?_ hstop
      intro j hj
      rw [← probeIdx_succ]
      exact hpre (j + 1) (by omega)

theorem hasAux_stop_at (m : trashmap_t) (h : Nat) (key : List Nat)
    (hn : 1 ≤ m.slot_count) :
    ∀ k idx fuel, idx < m.slot_count → k < fuel →
      (∀ j, j < k → ¬probeStop m h key (probeIdx m.slot_count idx j)) →
      probeStop m h key (probeIdx m.slot_count idx k) →
      hasAux m h key idx fuel = probeStopHas m (probeIdx m.slot_count idx k) := by
  intro k
  induction k with
  | zero =>
    intro idx fuel hidx hkf _ hstop
    cases fuel with
    | zero => omega
    | succ f =>
      rw [probeIdx_zero _ _ hidx] at hstop ⊢
      unfold probeStop at hstop
      unfold probeStopHas
      by_cases h0 : (slotAt m idx).index = U32MAX
      · simp only [hasAux, if_pos h0]
      · have hm : (slotAt m idx).hash = h ∧
            trashmap_strcmp key (itemAt m (slotAt m idx).index).key = 0 := by
          rcases hstop with h1 | h2
          · exact absurd h1 h0
          · exact h2
        simp only [hasAux, if_neg h0, if_pos hm]
  | succ k ih =>
    intro idx fuel hidx hkf hpre hstop
    cases fuel with
    | zero => omega
    | succ f =>
      have h0 := hpre 0 (by omega)
      rw [probeIdx_zero _ _ hidx] at h0
      unfold probeStop at h0
      have h01 : (slotAt m idx).index ≠ U32MAX := fun hc => h0 (Or.inl hc)
      have h02 : ¬((slotAt m idx).hash = h ∧
          trashmap_strcmp key (itemAt m (slotAt m idx).index).key = 0) :=
        fun hc => h0 (Or.inr hc)
      simp only [hasAux, if_neg h01, if_neg h02]
      rw [probeIdx_succ] at hstop ⊢
      apply ih _ f (Nat.mod_lt _ (by omega)) (by omega) ?_ hstop
      intro j hj
      rw [← probeIdx_succ]
      exact hpre (j + 1) (by omega)

/-- C9: for every table with at least one slot and every key, `slot_count`
probe steps decide the lookup: running the `get`/`has` probe loop with any
fuel bound `≥ slot_count` returns exactly what the `slot_count`-bounded loop
(the implementation, whose `do/while` wraps around after `slot_count` steps)
returns; moreover the probe sequence visits pairwise-distinct slots during
those `slot_count` steps, i.e. each slot is visited at most once. -/
theorem lookup_probe_bound (m : trashmap_t) (key : List Nat) (fuel : Nat)
    (hn : 1 ≤ m.slot_count) (hfuel : m.slot_count ≤ fuel) :
    trashmap_getFuel m key fuel = trashmap_get m key ∧
    trashmap_hasFuel m key fuel = trashmap_has m key ∧
    (∀ i j, i < m.slot_count → j < m.slot_count →
      probeIdx m.slot_count (trashmap_hash key % m.slot_count) i =
        probeIdx m.slot_count (trashmap_hash key % m.slot_count) j → i = j) := by
  have hstartlt : trashmap_hash key % m.slot_count < m.slot_count :=
    Nat.mod_lt _ (by omega)
  refine ⟨?_, ?_, fun i j hi hj hij => probeIdx_inj _ _ hi hj hij⟩
  · show getAux m (trashmap_hash key) key (trashmap_hash key % m.slot_count) fuel =
      getAux m (trashmap_hash key) key (trashmap_hash key % m.slot_count)
        m.slot_count
    by_cases hex : ∃ j, probeStop m (trashmap_hash key) key
        (probeIdx m.slot_count (trashmap_hash key % m.slot_count) j) ∧
        j < m.slot_count
    · obtain ⟨j0, hj0s, hj0n⟩ := hex
      have hexQ : ∃ j, probeStop m (trashmap_hash key) key
          (probeIdx m.slot_count (trashmap_hash key % m.slot_count) j) := ⟨j0, hj0s⟩
      have hkn : Nat.find hexQ < m.slot_count :=
        Nat.lt_of_le_of_lt (Nat.find_min' hexQ hj0s) hj0n
      rw [getAux_stop_at m _ key hn (Nat.find hexQ) _ fuel hstartlt
          (by omega) (fun j hj => Nat.find_min hexQ hj) (Nat.find_spec hexQ),
        getAux_stop_at m _ key hn (Nat.find hexQ) _ m.slot_count hstartlt
          hkn (fun j hj => Nat.find_min hexQ hj) (Nat.find_spec hexQ)]
    · push_neg at hex
      rw [getAux_no_stop m _ key hn fuel _ hstartlt
          (fun j hj hs => absurd (hex j hs) (by omega)),
        getAux_no_stop m _ key hn m.slot_count _ hstartlt
          (fun j hj hs => absurd (hex j hs) (by omega))]
  · show hasAux m (trashmap_hash key) key (trashmap_hash key % m.slot_count) fuel =
      hasAux m (trashmap_hash key) key (trashmap_hash key % m.slot_count)
        m.slot_count
    by_cases hex : ∃ j, probeStop m (trashmap_hash key) key
        (probeIdx m.slot_count (trashmap_hash key % m.slot_count) j) ∧
        j < m.slot_count
    · obtain ⟨j0, hj0s, hj0n⟩ := hex
      have hexQ : ∃ j, probeStop m (trashmap_hash key) key
          (probeIdx m.slot_count (trashmap_hash key % m.slot_count) j) := ⟨j0, hj0s⟩
      have hkn : Nat.find hexQ < m.slot_count :=
        Nat.lt_of_le_of_lt (Nat.find_min' hexQ hj0s) hj0n
      rw [hasAux_stop_at m _ key hn (Nat.find hexQ) _ fuel hstartlt
          (by omega) (fun j hj => Nat.find_min hexQ hj) (Nat.find_spec hexQ),
        hasAux_stop_at m _ key hn (Nat.find hexQ) _ m.slot_count hstartlt
          hkn (fun j hj => Nat.find_min hexQ hj) (Nat.find_spec hexQ)]
    · push_neg at hex
      rw [hasAux_no_stop m _ key hn fuel _ hstartlt
          (fun j hj hs => absurd (hex j hs) (by omega)),
        hasAux_no_stop m _ key hn m.slot_count _ hstartlt
          (fun j hj hs => absurd (hex j hs) (by omega))]

/-- Witness for `lookup_probe_bound`: a concrete 4-slot table probed with
fuel 9. -/
theorem lookup_probe_bound_witness :
    trashmap_getFuel (trashmap_init 4) [97] 9 =
      trashmap_get (trashmap_init 4) [97] ∧
    trashmap_hasFuel (trashmap_init 4) [97] 9 =
      trashmap_has (trashmap_init 4) [97] ∧
    (∀ i j, i < (trashmap_init 4).slot_count → j < (trashmap_init 4).slot_count →
      probeIdx (trashmap_init 4).slot_count
          (trashmap_hash [97] % (trashmap_init 4).slot_count) i =
        probeIdx (trashmap_init 4).slot_count
          (trashmap_hash [97] % (trashmap_init 4).slot_count) j → i = j) :=
  lookup_probe_bound (trashmap_init 4) [97] 9 (by decide) (by decide)

/-! ## Probe placement and rehash -/

theorem findable_set_of_empty (ns : List trashmap_slot_t) (n2 p : Nat)
    (x : trashmap_slot_t) (hp : (ns.getD p emptySlot).index = U32MAX)
    (h i : Nat) (hiU : i ≠ U32MAX) (hf : FindableSlots ns n2 h i) :
    FindableSlots (ns.set p x) n2 h i := by
  obtain ⟨k, hk, hwit, hpre⟩ := hf
  refine ⟨k, hk, ?_, ?_⟩
  · have hne : probeIdx n2 (h % n2) k ≠ p := by
      intro he
      rw [he] at hwit
      rw [hwit] at hp
      exact hiU hp
    rw [getD_set_ne _ _ _ _ _ (fun he => hne he.symm)]
    exact hwit
  · intro j hj
    have hne : probeIdx n2 (h % n2) j ≠ p := by
      intro he
      have := hpre j hj
      rw [he, hp] at this
      exact this rfl
    rw [getD_set_ne _ _ _ _ _ (fun he => hne he.symm)]
    exact hpre j hj

theorem probePlace_spec (ns : List trashmap_slot_t) (n2 : Nat)
    (s : trashmap_slot_t) (hlen : ns.length = n2) (hn2 : 1 ≤ n2) :
    ∀ fuel idx, idx < n2 →
      (∃ j, j < fuel ∧ (ns.getD (probeIdx n2 idx j) emptySlot).index = U32MAX) →
      ∃ k, k < fuel ∧
        (∀ j, j < k → (ns.getD (probeIdx n2 idx j) emptySlot).index ≠ U32MAX) ∧
        (ns.getD (probeIdx n2 idx k) emptySlot).index = U32MAX ∧
        probePlace ns n2 s idx fuel = ns.set (probeIdx n2 idx k) s := by
  intro fuel
  induction fuel with
  | zero =>
    intro idx _ hex
    obtain ⟨j, hj, _⟩ := hex
    omega
  | succ f ih =>
    intro idx hidx hex
    by_cases h0 : (ns.getD idx emptySlot).index = U32MAX
    · refine ⟨0, by omega, by omega, ?_, ?_⟩
      · rwa [probeIdx_zero _ _ hidx]
      · rw [probeIdx_zero _ _ hidx]
        simp only [probePlace, if_pos h0]
    · obtain ⟨j, hj, hje⟩ := hex
      cases j with
      | zero =>
        rw [probeIdx_zero _ _ hidx] at hje
        exact absurd hje h0
      | succ j0 =>
        rw [probeIdx_succ] at hje
        obtain ⟨k, hk, hkpre, hkemp, hkeq⟩ :=
          ih ((idx + 1) % n2) (Nat.mod_lt _ (by omega)) ⟨j0, by omega, hje⟩
        refine ⟨k + 1, by omega, ?_, ?_, ?_⟩
        · intro j1 hj1
          cases j1 with
          | zero => rwa [probeIdx_zero _ _ hidx]
          | succ j2 =>
            rw [probeIdx_succ]
            exact hkpre j2 (by omega)
        · rw [probeIdx_succ]
          exact hkemp
        · rw [probeIdx_succ]
          simp only [probePlace, if_neg h0]
          exact hkeq

theorem nonemptyCount_cons (s : trashmap_slot_t) (tail : List trashmap_slot_t) :
    nonemptyCount (s :: tail) =
      (if s.index = U32MAX then 0 else 1) + nonemptyCount tail := by
  by_cases h : s.index = U32MAX <;> simp [nonemptyCount, List.filter_cons, h] <;>
    omega

theorem nonemptyCount_set_of_empty (ns : List trashmap_slot_t) (p : Nat)
    (s : trashmap_slot_t) (hp : p < ns.length)
    (he : (ns.getD p emptySlot).index = U32MAX) (hs : s.index ≠ U32MAX) :
    nonemptyCount (ns.set p s) = nonemptyCount ns + 1 :=
  length_filter_set_true _ ns p s emptySlot hp (by simpa using he)
    (by simpa using hs)

theorem exists_empty_position (ns : List trashmap_slot_t) (n2 : Nat)
    (hlen : ns.length = n2) (hlt : nonemptyCount ns < n2) :
    ∃ p, p < n2 ∧ (ns.getD p emptySlot).index = U32MAX := by
  obtain ⟨i, hi, hf⟩ := exists_false_of_filter_length_lt
    (fun s => s.index != U32MAX) ns emptySlot (by
      unfold nonemptyCount at hlt
      omega)
  refine ⟨i, by omega, ?_⟩
  simpa using hf

theorem rehash_fold (n2 : Nat) (hn2 : 1 ≤ n2) (Good : trashmap_slot_t → Prop) :
    ∀ (old ns : List trashmap_slot_t),
      ns.length = n2 →
      nonemptyCount ns + nonemptyCount old < n2 →
      (∀ s ∈ old, s.index ≠ U32MAX → Good s) →
      (∀ q, q < n2 → (ns.getD q emptySlot).index ≠ U32MAX →
        Good (ns.getD q emptySlot)) →
      (List.foldl (rehashStep n2) ns old).length = n2 ∧
      nonemptyCount (List.foldl (rehashStep n2) ns old) =
        nonemptyCount ns + nonemptyCount old ∧
      (∀ h i, i ≠ U32MAX → FindableSlots ns n2 h i →
        FindableSlots (List.foldl (rehashStep n2) ns old) n2 h i) ∧
      (∀ s ∈ old, s.index ≠ U32MAX →
        FindableSlots (List.foldl (rehashStep n2) ns old) n2 s.hash s.index) ∧
      (∀ q, q < n2 →
        ((List.foldl (rehashStep n2) ns old).getD q emptySlot).index ≠ U32MAX →
        Good ((List.foldl (rehashStep n2) ns old).getD q emptySlot)) := by
  intro old
  induction old with
  | nil =>
    intro ns hlen hroom hgood hgns
    simp only [List.foldl_nil]
    refine ⟨hlen, by simp [nonemptyCount], fun h i _ hf => hf, by simp, hgns⟩
  | cons s tail ih =>
    intro ns hlen hroom hgood hgns
    simp only [List.foldl_cons]
    have hccons := nonemptyCount_cons s tail
    by_cases hs : s.index = U32MAX
    · have hstep : rehashStep n2 ns s = ns := by simp [rehashStep, hs]
      rw [hstep]
      have hroom' : nonemptyCount ns + nonemptyCount tail < n2 := by
        rw [hccons, if_pos hs] at hroom
        omega
      obtain ⟨c1, c2, c3, c4, c5⟩ := ih ns hlen hroom'
        (fun t ht hne => hgood t (List.mem_cons_of_mem s ht) hne) hgns
      refine ⟨c1, ?_, c3, ?_, c5⟩
      · rw [c2, hccons, if_pos hs]
        omega
      · intro t ht htne
        rcases List.mem_cons.mp ht with he | hm
        · rw [he] at htne
          exact absurd hs htne
        · exact c4 t hm htne
    · have hnse : nonemptyCount ns < n2 := by
        rw [hccons, if_neg hs] at hroom
        omega
      obtain ⟨p, hp, hpe⟩ := exists_empty_position ns n2 hlen hnse
      have hstart : s.hash % n2 < n2 := Nat.mod_lt _ (by omega)
      obtain ⟨j, hjn, hje⟩ := probeIdx_surj n2 (s.hash % n2) p hp hstart
      obtain ⟨k, hkn, hkpre, hkemp, hkeq⟩ := probePlace_spec ns n2 s hlen hn2
        n2 (s.hash % n2) hstart ⟨j, hjn, by rw [hje]; exact hpe⟩
      have hqn : probeIdx n2 (s.hash % n2) k < n2 := probeIdx_lt _ _ _ (by omega)
      have hstep : rehashStep n2 ns s = ns.set (probeIdx n2 (s.hash % n2) k) s := by
        rw [rehashStep, if_neg hs]
        exact hkeq
      rw [hstep]
      have hlen' : (ns.set (probeIdx n2 (s.hash % n2) k) s).length = n2 := by
        simp [hlen]
      have hcnt' : nonemptyCount (ns.set (probeIdx n2 (s.hash % n2) k) s) =
          nonemptyCount ns + 1 :=
        nonemptyCount_set_of_empty ns _ s (by omega) hkemp hs
      have hroom' : nonemptyCount (ns.set (probeIdx n2 (s.hash % n2) k) s) +
          nonemptyCount tail < n2 := by
        rw [hcnt']
        rw [hccons, if_neg hs] at hroom
        omega
      have hsnew : FindableSlots (ns.set (probeIdx n2 (s.hash % n2) k) s) n2
          s.hash s.index := by
        refine ⟨k, by omega, ?_, ?_⟩
        · rw [getD_set_self _ _ _ _ (by omega)]
        · intro j1 hj1
          have hne : probeIdx n2 (s.hash % n2) k ≠ probeIdx n2 (s.hash % n2) j1 := by
            intro he
            have := probeIdx_inj n2 (s.hash % n2) (by omega : k < n2)
              (by omega : j1 < n2) he
            omega
          rw [getD_set_ne _ _ _ _ _ hne]
          exact hkpre j1 hj1
      have hgns' : ∀ q0, q0 < n2 →
          ((ns.set (probeIdx n2 (s.hash % n2) k) s).getD q0 emptySlot).index ≠ U32MAX →
          Good ((ns.set (probeIdx n2 (s.hash % n2) k) s).getD q0 emptySlot) := by
        intro q0 hq0 hne0
        by_cases heq : q0 = probeIdx n2 (s.hash % n2) k
        · rw [heq, getD_set_self _ _ _ _ (by omega)]
          exact hgood s (List.mem_cons_self s tail) hs
        · rw [getD_set_ne _ _ _ _ _ (fun he => heq he.symm)] at hne0 ⊢
          exact hgns q0 hq0 hne0
      obtain ⟨c1, c2, c3, c4, c5⟩ := ih (ns.set (probeIdx n2 (s.hash % n2) k) s)
        hlen' hroom' (fun t ht hne => hgood t (List.mem_cons_of_mem s ht) hne)
        hgns'
      refine ⟨c1, ?_, ?_, ?_, c5⟩
      · rw [c2, hcnt', hccons, if_neg hs]
        omega
      · intro h i hiU hf
        exact c3 h i hiU (findable_set_of_empty ns n2 _ s hkemp h i hiU hf)
      · intro t ht htne
        rcases List.mem_cons.mp ht with he | hm
        · rw [he]
          exact c3 s.hash s.index (by rw [he] at htne; exact htne) hsnew
        · exact c4 t hm htne

theorem nonemptyCount_replicate (n : Nat) :
    nonemptyCount (List.replicate n emptySlot) = 0 := by
  induction n with
  | zero => rfl
  | succ k ih =>
    rw [List.replicate_succ, nonemptyCount_cons, ih]
    simp [emptySlot]

theorem exists_getD_of_mem {α : Type} (l : List α) (s d : α) (hs : s ∈ l) :
    ∃ i, i < l.length ∧ l.getD i d = s := by
  induction l with
  | nil => simp at hs
  | cons x xs ih =>
    rcases List.mem_cons.mp hs with he | hm
    · exact ⟨0, by simp, he.symm⟩
    · obtain ⟨i, hi, hg⟩ := ih hm
      exact ⟨i + 1, by simp [Nat.succ_lt_succ hi], hg⟩

/-! ## Invariant preservation: `trashmap_reserve` -/

theorem reserve_arena_inv (m : trashmap_t) (extra : Nat) (hInv : TmInv m) :
    TmInv (trashmap_reserve_arena m extra) := by
  obtain ⟨hslen, hilen, hn, hcap, hload, hcnt, hne, hvalid, hcstr, hinj, hfnd⟩ :=
    hInv
  have hslots := reserve_arena_slots m extra
  have hscnt := reserve_arena_slot_count m extra
  have hcount := reserve_arena_count m extra
  have hcapge := reserve_arena_capacity_ge_old m extra
  have hitem : ∀ i, i < m.count →
      itemAt (trashmap_reserve_arena m extra) i = itemAt m i := fun i hi =>
    reserve_arena_itemAt m extra i (by omega)
  refine ⟨by rw [hslots, hscnt]; exact hslen,
    reserve_arena_items_length m extra hilen,
    by rw [hscnt]; exact hn,
    by rw [hcount]; omega,
    by rw [hcount, hscnt]; exact hload,
    by rw [hcount]; exact hcnt,
    by rw [hslots, hcount]; exact hne,
    ?_, ?_, ?_, ?_⟩
  · intro s hs hne0
    rw [hslots] at hs
    obtain ⟨h1, h2⟩ := hvalid s hs hne0
    rw [hcount, hitem s.index h1]
    exact ⟨h1, h2⟩
  · intro i hi
    rw [hcount] at hi
    rw [hitem i hi]
    exact hcstr i hi
  · intro i hi j hj
    rw [hcount] at hi hj
    rw [hitem i hi, hitem j hj]
    exact hinj i hi j hj
  · intro i hi
    rw [hcount] at hi
    rw [hslots, hscnt, hitem i hi]
    exact hfnd i hi

theorem reserve_slots_inv (m : trashmap_t) (extra : Nat) (hInv : TmInv m) :
    TmInv (trashmap_reserve_slots m extra) := by
  by_cases hc : m.slot_count * 3 / 4 < m.count + extra
  · obtain ⟨hslen, hilen, hn, hcap, hload, hcnt, hne, hvalid, hcstr, hinj, hfnd⟩ :=
      hInv
    have hm2 : trashmap_reserve_slots m extra =
        { m with slots := rehashSlots m.slots (m.slot_count * 2),
                 slot_count := m.slot_count * 2 } := by
      unfold trashmap_reserve_slots
      rw [if_pos hc]
    rw [hm2]
    have hn2 : 1 ≤ m.slot_count * 2 := by omega
    obtain ⟨c1, c2, c3, c4, c5⟩ := rehash_fold (m.slot_count * 2) hn2
      (fun s => s.index < m.count ∧
        s.hash = trashmap_hash (itemAt m s.index).key)
      m.slots (List.replicate (m.slot_count * 2) emptySlot)
      (by simp)
      (by rw [nonemptyCount_replicate, hne]; omega)
      (fun s hs hne0 => hvalid s hs hne0)
      (by
        intro q hq hne0
        rw [getD_replicate _ _ _ _ hq] at hne0
        exact absurd rfl hne0)
    have hrs : rehashSlots m.slots (m.slot_count * 2) =
        List.foldl (rehashStep (m.slot_count * 2))
          (List.replicate (m.slot_count * 2) emptySlot) m.slots := rfl
    refine ⟨by dsimp only; rw [hrs]; exact c1,
      hilen,
      by dsimp only; omega,
      hcap,
      by dsimp only; omega,
      hcnt,
      by dsimp only; rw [hrs, c2, nonemptyCount_replicate, hne]; omega,
      ?_, hcstr, hinj, ?_⟩
    · intro s hs hne0
      rw [hrs] at hs
      obtain ⟨q, hq, hgd⟩ := exists_getD_of_mem _ s emptySlot hs
      have hg := c5 q (by rw [← c1]; exact hq) (by rw [hgd]; exact hne0)
      rw [hgd] at hg
      exact hg
    · intro i hi
      obtain ⟨k, hk, hwit, hpre⟩ := hfnd i hi
      have hiU : i ≠ U32MAX := Nat.ne_of_lt (Nat.lt_trans hi hcnt)
      have hmem : m.slots.getD
          (probeIdx m.slot_count
            (trashmap_hash (itemAt m i).key % m.slot_count) k) emptySlot ∈
          m.slots :=
        getD_mem _ _ _ (by rw [hslen]; exact probeIdx_lt _ _ _ (by omega))
      have hfin := c4 _ hmem (by rw [hwit]; exact hiU)
      rw [hwit] at hfin
      rw [hrs]
      exact hfin
  · have he : trashmap_reserve_slots m extra = m := by
      unfold trashmap_reserve_slots
      rw [if_neg hc]
    rwa [he]

theorem reserve_slots_itemAt (m : trashmap_t) (extra : Nat) (i : Nat) :
    itemAt (trashmap_reserve_slots m extra) i = itemAt m i := by
  unfold itemAt
  rw [reserve_slots_items]

/-- Function `trashmap_reserve` preserves the invariant, keeps `count` and the live
arena prefix, and guarantees room for `extra` more items. -/
theorem reserve_inv (m : trashmap_t) (extra : Nat) (hInv : TmInv m) :
    TmInv (trashmap_reserve m extra) ∧
    (trashmap_reserve m extra).count = m.count ∧
    (∀ i, i < m.count → itemAt (trashmap_reserve m extra) i = itemAt m i) ∧
    m.count + extra ≤ (trashmap_reserve m extra).capacity := by
  refine ⟨reserve_slots_inv _ extra (reserve_arena_inv m extra hInv),
    reserve_count m extra, ?_, reserve_capacity_ge m extra⟩
  intro i hi
  have hilen : m.items.length = m.capacity := hInv.2.1
  have hcap : m.count ≤ m.capacity := hInv.2.2.2.1
  unfold trashmap_reserve
  rw [reserve_slots_itemAt]
  exact reserve_arena_itemAt m extra i (by omega)

/-! ## Insert/update correctness of `setAux` -/

theorem setAux_update (m : trashmap_t) (key : List Nat)
    (value : Option (List Nat)) (i : Nat) (hInv : TmInv m) (hk : CStr key)
    (hi : i < m.count) (hkey : (itemAt m i).key = key) :
    ∀ w idx fuel, idx < m.slot_count → w < fuel →
      slotAt m (probeIdx m.slot_count idx w) = ⟨trashmap_hash key, i⟩ →
      (∀ j, j < w → (slotAt m (probeIdx m.slot_count idx j)).index ≠ U32MAX) →
      setAux m key value (trashmap_hash key) idx fuel =
        some { m with items := m.items.set i ⟨(itemAt m i).key, value⟩ } := by
  obtain ⟨hslen, hilen, hn, hcap, hload, hcnt, hne, hvalid, hcstr, hinj, hfnd⟩ :=
    hInv
  have hiU : i ≠ U32MAX := Nat.ne_of_lt (Nat.lt_trans hi hcnt)
  intro w
  induction w with
  | zero =>
    intro idx fuel hidx hwf hwit _
    cases fuel with
    | zero => omega
    | succ f =>
      rw [probeIdx_zero _ _ hidx] at hwit
      have hcmp : trashmap_strcmp key (itemAt m i).key = 0 := by
        rw [hkey]; exact trashmap_strcmp_self key
      simp only [setAux, hwit, if_neg hiU]
      simp [hcmp]
  | succ w ih =>
    intro idx fuel hidx hwf hwit hpre
    cases fuel with
    | zero => omega
    | succ f =>
      have h0 : (slotAt m idx).index ≠ U32MAX := by
        have := hpre 0 (Nat.succ_pos w)
        rwa [probeIdx_zero _ _ hidx] at this
      have hmem : slotAt m idx ∈ m.slots :=
        getD_mem m.slots idx emptySlot (by omega)
      by_cases hm : (slotAt m idx).hash = trashmap_hash key ∧
          trashmap_strcmp key (itemAt m (slotAt m idx).index).key = 0
      · obtain ⟨hbc, hbh⟩ := hvalid _ hmem h0
        have hkb : key = (itemAt m (slotAt m idx).index).key :=
          (trashmap_strcmp_eq_zero_iff hk (hcstr _ hbc)).mp hm.2
        have hbi : (slotAt m idx).index = i :=
          hinj _ hbc i hi (by rw [← hkb, hkey])
        simp only [setAux, if_neg h0, if_pos hm]
        rw [hbi]
      · simp only [setAux, if_neg h0, if_neg hm]
        apply ih ((idx + 1) % m.slot_count) f
          (Nat.mod_lt _ (by omega)) (by omega)
        · rw [← probeIdx_succ]
          exact hwit
        · intro j hj
          rw [← probeIdx_succ]
          exact hpre (j + 1) (by omega)

theorem setAux_insert (m : trashmap_t) (key : List Nat)
    (value : Option (List Nat)) (hInv : TmInv m) (hk : CStr key)
    (habs : ∀ i, i < m.count → (itemAt m i).key ≠ key) :
    ∀ fuel idx, idx < m.slot_count →
      (∃ j, j < fuel ∧ (slotAt m (probeIdx m.slot_count idx j)).index = U32MAX) →
      ∃ k, k < fuel ∧
        (∀ j, j < k → (slotAt m (probeIdx m.slot_count idx j)).index ≠ U32MAX) ∧
        (slotAt m (probeIdx m.slot_count idx k)).index = U32MAX ∧
        setAux m key value (trashmap_hash key) idx fuel =
          some { m with
            items := m.items.set m.count ⟨key, value⟩
            slots := m.slots.set (probeIdx m.slot_count idx k)
              ⟨trashmap_hash key, u32 m.count⟩
            count := m.count + 1 } := by
  obtain ⟨hslen, hilen, hn, hcap, hload, hcnt, hne, hvalid, hcstr, hinj, hfnd⟩ :=
    hInv
  intro fuel
  induction fuel with
  | zero =>
    intro idx _ hex
    obtain ⟨j, hj, _⟩ := hex
    omega
  | succ f ih =>
    intro idx hidx hex
    by_cases h0 : (slotAt m idx).index = U32MAX
    · refine ⟨0, by omega, by omega, ?_, ?_⟩
      · rwa [probeIdx_zero _ _ hidx]
      · rw [probeIdx_zero _ _ hidx]
        simp only [setAux, if_pos h0]
    · have hmem : slotAt m idx ∈ m.slots :=
        getD_mem m.slots idx emptySlot (by omega)
      have hm : ¬((slotAt m idx).hash = trashmap_hash key ∧
          trashmap_strcmp key (itemAt m (slotAt m idx).index).key = 0) := by
        rintro ⟨h1, h2⟩
        obtain ⟨hbc, hbh⟩ := hvalid _ hmem h0
        have hkb : key = (itemAt m (slotAt m idx).index).key :=
          (trashmap_strcmp_eq_zero_iff hk (hcstr _ hbc)).mp h2
        exact habs _ hbc hkb.symm
      obtain ⟨j, hj, hje⟩ := hex
      cases j with
      | zero =>
        rw [probeIdx_zero _ _ hidx] at hje
        exact absurd hje h0
      | succ j0 =>
        rw [probeIdx_succ] at hje
        obtain ⟨k, hk1, hkpre, hkemp, hkeq⟩ :=
          ih ((idx + 1) % m.slot_count) (Nat.mod_lt _ (by omega))
            ⟨j0, by omega, hje⟩
        refine ⟨k + 1, by omega, ?_, ?_, ?_⟩
        · intro j1 hj1
          cases j1 with
          | zero => rwa [probeIdx_zero _ _ hidx]
          | succ j2 =>
            rw [probeIdx_succ]
            exact hkpre j2 (by omega)
        · rw [probeIdx_succ]
          exact hkemp
        · rw [probeIdx_succ]
          simp only [setAux, if_neg h0, if_neg hm]
          exact hkeq

/-- C2 core: setting a key already present updates only that item's value in
place (its key and all other items untouched) and leaves `count` unchanged. -/
theorem trashmap_set_update (m : trashmap_t) (key : List Nat)
    (value : Option (List Nat)) (i : Nat) (hInv : TmInv m) (hk : CStr key)
    (hi : i < m.count) (hkey : (itemAt m i).key = key) :
    ∃ m2, trashmap_set m key value = some m2 ∧ TmInv m2 ∧
      m2.count = m.count ∧
      itemAt m2 i = ⟨key, value⟩ ∧
      (∀ j, j < m.count → j ≠ i → itemAt m2 j = itemAt m j) := by
  obtain ⟨hInv1, hc1, hitems1, hcap1⟩ := reserve_inv m 1 hInv
  have hi1 : i < (trashmap_reserve m 1).count := by omega
  have hkey1 : (itemAt (trashmap_reserve m 1) i).key = key := by
    rw [hitems1 i hi]; exact hkey
  obtain ⟨hslen, hilen, hn, hcap, hload, hcnt, hne, hvalid, hcstr, hinj, hfnd⟩ :=
    hInv1
  have hfnd1 := hfnd i hi1
  rw [hkey1] at hfnd1
  obtain ⟨k, hk1, hwit, hpre⟩ := hfnd1
  have heq := setAux_update (trashmap_reserve m 1) key value i
    ⟨hslen, hilen, hn, hcap, hload, hcnt, hne, hvalid, hcstr, hinj, hfnd⟩
    hk hi1 hkey1 k (trashmap_hash key % (trashmap_reserve m 1).slot_count)
    (trashmap_reserve m 1).slot_count (Nat.mod_lt _ (by omega)) hk1 hwit hpre
  have hilt : i < (trashmap_reserve m 1).items.length := by omega
  have hkeep : ∀ j, j < (trashmap_reserve m 1).count →
      (itemAt { trashmap_reserve m 1 with
        items := (trashmap_reserve m 1).items.set i
          ⟨(itemAt (trashmap_reserve m 1) i).key, value⟩ } j).key =
      (itemAt (trashmap_reserve m 1) j).key := by
    intro j hj
    by_cases hji : j = i
    · subst hji
      unfold itemAt
      rw [getD_set_self _ _ _ _ hilt]
    · unfold itemAt
      rw [getD_set_ne _ _ _ _ _ (fun he => hji he.symm)]
  refine ⟨_, heq, ⟨hslen, by simpa using hilen, hn, hcap, hload, hcnt, hne,
    ?_, ?_, ?_, ?_⟩, by dsimp only; omega, ?_, ?_⟩
  · intro s hs hne0
    obtain ⟨h1, h2⟩ := hvalid s hs hne0
    refine ⟨h1, ?_⟩
    rw [hkeep s.index h1]
    exact h2
  · intro j hj
    have := hcstr j hj
    unfold itemAt at this ⊢
    by_cases hji : j = i
    · subst hji
      rw [getD_set_self _ _ _ _ hilt]
      unfold itemAt at hkey1
      rw [hkey1]
      exact hk
    · rw [getD_set_ne _ _ _ _ _ (fun he => hji he.symm)]
      exact this
  · intro j hj j2 hj2 hkk
    rw [hkeep j hj, hkeep j2 hj2] at hkk
    exact hinj j hj j2 hj2 hkk
  · intro j hj
    rw [hkeep j hj]
    exact hfnd j hj
  · unfold itemAt
    rw [getD_set_self _ _ _ _ hilt]
    unfold itemAt at hkey1
    rw [hkey1]
  · intro j hj hji
    have hj1 : j < (trashmap_reserve m 1).count := by omega
    unfold itemAt
    rw [getD_set_ne _ _ _ _ _ (fun he => hji he.symm)]
    exact hitems1 j hj

/-- Insert case of `trashmap_set`: a key not present is appended at arena
index `count`, placed into the first empty probed slot, and `count` grows
by one; the assertion cannot fire. -/
theorem trashmap_set_insert (m : trashmap_t) (key : List Nat)
    (value : Option (List Nat)) (hInv : TmInv m) (hk : CStr key)
    (hcnt1 : m.count + 1 < U32MAX)
    (habs : ∀ i, i < m.count → (itemAt m i).key ≠ key) :
    ∃ m2, trashmap_set m key value = some m2 ∧ TmInv m2 ∧
      m2.count = m.count + 1 ∧
      itemAt m2 m.count = ⟨key, value⟩ ∧
      (∀ j, j < m.count → itemAt m2 j = itemAt m j) := by
  have hload1 := reserve_one_load m hInv.2.2.1 hInv.2.2.2.2.1
  obtain ⟨hInv1, hc1, hitems1, hcap1⟩ := reserve_inv m 1 hInv
  obtain ⟨hslen, hilen, hn, hcap, hload, hcnt, hne, hvalid, hcstr, hinj, hfnd⟩ :=
    hInv1
  have habs1 : ∀ i, i < (trashmap_reserve m 1).count →
      (itemAt (trashmap_reserve m 1) i).key ≠ key := by
    intro i hi
    rw [hitems1 i (by omega)]
    exact habs i (by omega)
  obtain ⟨p, hp, hpe⟩ := exists_empty_position (trashmap_reserve m 1).slots
    (trashmap_reserve m 1).slot_count hslen (by omega)
  obtain ⟨j, hjn, hje⟩ := probeIdx_surj _
    (trashmap_hash key % (trashmap_reserve m 1).slot_count) p hp
    (Nat.mod_lt _ (by omega))
  obtain ⟨k, hk1, hkpre, hkemp, hkeq⟩ := setAux_insert (trashmap_reserve m 1)
    key value
    ⟨hslen, hilen, hn, hcap, hload, hcnt, hne, hvalid, hcstr, hinj, hfnd⟩
    hk habs1 (trashmap_reserve m 1).slot_count
    (trashmap_hash key % (trashmap_reserve m 1).slot_count)
    (Nat.mod_lt _ (by omega)) ⟨j, hjn, by rw [hje]; exact hpe⟩
  have hU : U32MAX + 1 = 2 ^ 32 := by norm_num [U32MAX]
  have hu : u32 (trashmap_reserve m 1).count = (trashmap_reserve m 1).count :=
    Nat.mod_eq_of_lt (by omega)
  have hqlt : probeIdx (trashmap_reserve m 1).slot_count
      (trashmap_hash key % (trashmap_reserve m 1).slot_count) k <
      (trashmap_reserve m 1).slot_count := probeIdx_lt _ _ _ (by omega)
  have hclt : (trashmap_reserve m 1).count <
      (trashmap_reserve m 1).items.length := by omega
  refine ⟨_, hkeq, ⟨by simpa using hslen, by simpa using hilen, hn,
    by dsimp only; omega, by dsimp only; omega, by dsimp only; omega,
    ?_, ?_, ?_, ?_, ?_⟩, by dsimp only; omega, ?_, ?_⟩
  · -- nonemptyCount
    dsimp only
    rw [nonemptyCount_set_of_empty _ _ _ (by omega) hkemp
        (by dsimp only; rw [hu]; omega),
      hne]
  · -- slot validity
    dsimp only
    intro s hs hne0
    rcases List.mem_or_eq_of_mem_set hs with hmem | hnew
    · obtain ⟨h1, h2⟩ := hvalid s hmem hne0
      refine ⟨by omega, ?_⟩
      unfold itemAt
      dsimp only
      rw [getD_set_ne _ _ _ _ _ (by omega)]
      unfold itemAt at h2
      exact h2
    · subst hnew
      dsimp only
      rw [hu]
      refine ⟨by omega, ?_⟩
      unfold itemAt
      dsimp only
      rw [getD_set_self _ _ _ _ hclt]
  · -- CStr of keys
    dsimp only
    intro j2 hj2
    unfold itemAt
    dsimp only
    by_cases hje2 : j2 = (trashmap_reserve m 1).count
    · subst hje2
      rw [getD_set_self _ _ _ _ hclt]
      exact hk
    · rw [getD_set_ne _ _ _ _ _ (fun he => hje2 he.symm)]
      have := hcstr j2 (by omega)
      unfold itemAt at this
      exact this
  · -- key injectivity
    dsimp only
    intro j1 hj1 j2 hj2 hkk
    unfold itemAt at hkk
    dsimp only at hkk
    by_cases he1 : j1 = (trashmap_reserve m 1).count <;>
      by_cases he2 : j2 = (trashmap_reserve m 1).count
    · omega
    · exfalso
      subst he1
      rw [getD_set_self _ _ _ _ hclt,
        getD_set_ne _ _ _ _ _ (fun he => he2 he.symm)] at hkk
      exact habs1 j2 (by omega) hkk.symm
    · exfalso
      subst he2
      rw [getD_set_self _ _ _ _ hclt,
        getD_set_ne _ _ _ _ _ (fun he => he1 he.symm)] at hkk
      exact habs1 j1 (by omega) hkk
    · rw [getD_set_ne _ _ _ _ _ (fun he => he1 he.symm),
        getD_set_ne _ _ _ _ _ (fun he => he2 he.symm)] at hkk
      have := hinj j1 (by omega) j2 (by omega)
      unfold itemAt at this
      exact this hkk
  · -- findability
    dsimp only
    intro i hi
    unfold itemAt
    dsimp only
    by_cases hie : i = (trashmap_reserve m 1).count
    · subst hie
      rw [getD_set_self _ _ _ _ hclt]
      refine ⟨k, by omega, ?_, ?_⟩
      · rw [getD_set_self _ _ _ _ (by omega), hu]
      · intro j1 hj1
        have hnej : probeIdx (trashmap_reserve m 1).slot_count
            (trashmap_hash key % (trashmap_reserve m 1).slot_count) k ≠
            probeIdx (trashmap_reserve m 1).slot_count
            (trashmap_hash key % (trashmap_reserve m 1).slot_count) j1 := by
          intro he
          have := probeIdx_inj _ _
            (by omega : k < (trashmap_reserve m 1).slot_count)
            (by omega : j1 < (trashmap_reserve m 1).slot_count) he
          omega
        rw [getD_set_ne _ _ _ _ _ hnej]
        exact hkpre j1 hj1
    · rw [getD_set_ne _ _ _ _ _ (fun he => hie he.symm)]
      have hff := findable_set_of_empty (trashmap_reserve m 1).slots
        (trashmap_reserve m 1).slot_count _
        ⟨trashmap_hash key, u32 (trashmap_reserve m 1).count⟩ hkemp
        (trashmap_hash (itemAt (trashmap_reserve m 1) i).key) i
        (Nat.ne_of_lt (by omega)) (hfnd i (by omega))
      unfold itemAt at hff
      exact hff
  · -- new item
    unfold itemAt
    dsimp only
    rw [hc1]
    have hclt2 : m.count < (trashmap_reserve m 1).items.length := by omega
    rw [getD_set_self _ _ _ _ hclt2]
  · -- frame over the original table
    intro j2 hj2
    unfold itemAt
    dsimp only
    rw [hc1, getD_set_ne _ _ _ _ _ (by omega)]
    have := hitems1 j2 hj2
    unfold itemAt at this
    exact this

/-! ## Model-level operations -/

theorem getD_map {α β : Type} (f : α → β) (l : List α) (i : Nat) (d : β)
    (d0 : α) (h : i < l.length) : (l.map f).getD i d = f (l.getD i d0) := by
  induction l generalizing i with
  | nil => simp at h
  | cons x xs ih =>
    cases i with
    | zero => rfl
    | succ n => exact ih n (by simpa using h)

theorem getD_append_at {α : Type} (l : List α) (a d : α) :
    (l ++ [a]).getD l.length d = a := by
  induction l with
  | nil => rfl
  | cons x xs ih => exact ih

/-- Function `trashmap_init` establishes the invariant and the empty model. -/
theorem trashmap_init_inv (n : Nat) (hn : 1 ≤ n) :
    TmInv (trashmap_init n) ∧ Model (trashmap_init n) [] := by
  refine ⟨⟨by simp [trashmap_init], rfl, hn, Nat.le_refl 0, Nat.zero_le _,
    by norm_num [trashmap_init, U32MAX], nonemptyCount_replicate n,
    ?_, ?_, ?_, ?_⟩, rfl, ?_⟩
  · intro s hs hne0
    have hse : s = emptySlot := List.eq_of_mem_replicate hs
    subst hse
    exact absurd rfl hne0
  · intro i hi
    exact absurd hi (by norm_num [trashmap_init])
  · intro i hi
    exact absurd hi (by norm_num [trashmap_init])
  · intro i hi
    exact absurd hi (by norm_num [trashmap_init])
  · intro i hi
    exact absurd hi (by norm_num)

/-- Function `trashmap_clear` preserves the invariant, resets the model to empty, and
leaves `slot_count`, `capacity` and the arena allocation untouched. -/
theorem trashmap_clear_inv (m : trashmap_t) (hInv : TmInv m) :
    TmInv (trashmap_clear m) ∧ Model (trashmap_clear m) [] ∧
    (trashmap_clear m).count = 0 ∧
    (trashmap_clear m).slot_count = m.slot_count ∧
    (trashmap_clear m).capacity = m.capacity ∧
    (trashmap_clear m).items = m.items := by
  obtain ⟨hslen, hilen, hn, hcap, hload, hcnt, hne, hvalid, hcstr, hinj, hfnd⟩ :=
    hInv
  refine ⟨⟨by simp [trashmap_clear], hilen, hn, Nat.zero_le _, Nat.zero_le _,
    by norm_num [trashmap_clear, U32MAX],
    by simpa [trashmap_clear] using nonemptyCount_replicate m.slot_count,
    ?_, ?_, ?_, ?_⟩, ⟨rfl, ?_⟩, rfl, rfl, rfl, rfl⟩
  · intro s hs hne0
    have hse : s = emptySlot := List.eq_of_mem_replicate hs
    subst hse
    exact absurd rfl hne0
  · intro i hi
    exact absurd hi (by norm_num [trashmap_clear])
  · intro i hi
    exact absurd hi (by norm_num [trashmap_clear])
  · intro i hi
    exact absurd hi (by norm_num [trashmap_clear])
  · intro i hi
    exact absurd hi (by norm_num)

/-- Function `trashmap_set` refines the specification-level `absSet` on the
association-list model and preserves the invariant. -/
theorem trashmap_set_model (m : trashmap_t)
    (l : List (List Nat × Option (List Nat))) (key : List Nat)
    (value : Option (List Nat)) (hInv : TmInv m) (hM : Model m l)
    (hk : CStr key) (hcnt1 : m.count + 1 < U32MAX) :
    ∃ m2, trashmap_set m key value = some m2 ∧ TmInv m2 ∧
      Model m2 (absSet l key value) := by
  obtain ⟨hlen, hitems⟩ := hM
  by_cases hex : ∃ i, i < m.count ∧ (itemAt m i).key = key
  · obtain ⟨i0, hi0, hkey0⟩ := hex
    obtain ⟨m2, he, hInv2, hcnt2, hupd, hframe⟩ :=
      trashmap_set_update m key value i0 hInv hk hi0 hkey0
    have hfst : ∀ i, i < l.length →
        (l.getD i ([], none)).1 = (itemAt m i).key := by
      intro i hi
      rw [hitems i hi]
    have hany : l.any (fun p => p.1 == key) = true := by
      apply List.any_eq_true.mpr
      refine ⟨l.getD i0 ([], none), getD_mem _ _ _ (by omega), ?_⟩
      rw [hfst i0 (by omega), hkey0]
      exact beq_self_eq_true key
    refine ⟨m2, he, hInv2, ?_, ?_⟩
    · unfold absSet
      rw [if_pos hany]
      simpa using hcnt2.trans hlen
    · intro i hi
      unfold absSet at hi ⊢
      rw [if_pos hany] at hi ⊢
      have hil : i < l.length := by simpa using hi
      rw [getD_map _ _ _ _ ([], none) hil]
      by_cases hii : i = i0
      · have hupd2 : itemAt m2 i = ⟨key, value⟩ := by rw [hii]; exact hupd
        have hkeq2 : (l.getD i ([], none)).1 = key := by
          rw [hfst i hil, hii]
          exact hkey0
        have hb : ((l.getD i ([], none)).1 == key) = true := by
          rw [hkeq2]
          exact beq_self_eq_true key
        rw [hupd2]
        split
        · rw [hkeq2]
        · next h => exact absurd hb h
      · have hne : (l.getD i ([], none)).1 ≠ key := by
          rw [hfst i hil]
          intro he2
          exact hii (hInv.2.2.2.2.2.2.2.2.2.1 i (by omega) i0 hi0
            (by rw [he2, hkey0]))
        have hb : ((l.getD i ([], none)).1 == key) = false := by
          simpa using hne
        rw [hframe i (by omega) hii]
        simp only [hb, Bool.false_eq_true, if_false]
        exact hitems i hil
  · push_neg at hex
    obtain ⟨m2, he, hInv2, hcnt2, hnew, hframe⟩ :=
      trashmap_set_insert m key value hInv hk hcnt1 hex
    have hnone : l.any (fun p => p.1 == key) = false := by
      apply List.any_eq_false.mpr
      intro p hp
      obtain ⟨i, hi, hgd⟩ := exists_getD_of_mem l p ([], none) hp
      intro hbeq
      have hpk : p.1 = key := by simpa using hbeq
      have hik : (itemAt m i).key = key := by
        rw [hitems i hi, hgd]
        exact hpk
      exact hex i (by omega) hik
    refine ⟨m2, he, hInv2, ?_, ?_⟩
    · unfold absSet
      rw [hnone]
      simp only [Bool.false_eq_true, if_false, List.length_append,
        List.length_singleton]
      omega
    · intro i hi
      unfold absSet at hi ⊢
      rw [hnone] at hi ⊢
      simp only [Bool.false_eq_true, if_false, List.length_append,
        List.length_singleton] at hi ⊢
      by_cases hii : i < l.length
      · rw [getD_append_left _ _ _ _ hii, hframe i (by omega), hitems i hii]
      · have hie : i = l.length := by omega
        subst hie
        rw [getD_append_at]
        rw [← hlen]
        exact hnew

theorem setOpCount_cons_set (k : List Nat) (v : Option (List Nat))
    (rest : List MapOp) :
    setOpCount (MapOp.set k v :: rest) = setOpCount rest + 1 := by
  simp [setOpCount, List.filter_cons]

theorem setOpCount_cons_reserve (e : Nat) (rest : List MapOp) :
    setOpCount (MapOp.reserve e :: rest) = setOpCount rest := by
  simp [setOpCount, List.filter_cons]

theorem setOpCount_cons_clear (rest : List MapOp) :
    setOpCount (MapOp.clear :: rest) = setOpCount rest := by
  simp [setOpCount, List.filter_cons]

theorem absSet_length_le (l : List (List Nat × Option (List Nat)))
    (k : List Nat) (v : Option (List Nat)) :
    (absSet l k v).length ≤ l.length + 1 := by
  unfold absSet
  split
  · simp
  · simp

/-- Master simulation: every operation sequence run from an invariant-holding,
model-related state succeeds (no assertion fires), preserves the invariant,
and tracks the specification-level association list. -/
theorem runOps_master (ops : List MapOp) :
    ∀ (m : trashmap_t) (l : List (List Nat × Option (List Nat))),
      TmInv m → Model m l →
      (∀ op ∈ ops, opKeyOK op = true) →
      m.count + setOpCount ops < U32MAX →
      ∃ m2, runOps m ops = some m2 ∧ TmInv m2 ∧ Model m2 (runAbs l ops) := by
  induction ops with
  | nil =>
    intro m l hInv hM _ _
    exact ⟨m, rfl, hInv, hM⟩
  | cons op rest ih =>
    intro m l hInv hM hkeys hbound
    cases op with
    | set k v =>
      rw [setOpCount_cons_set] at hbound
      have hk : CStr k := by
        have := hkeys _ (List.mem_cons_self _ rest)
        exact of_decide_eq_true this
      obtain ⟨m2, he, hInv2, hM2⟩ := trashmap_set_model m l k v hInv hM hk
        (by omega)
      have hc2 : m2.count ≤ m.count + 1 := by
        rw [hM2.1]
        have := absSet_length_le l k v
        rw [← hM.1] at this
        omega
      obtain ⟨m3, he3, hInv3, hM3⟩ := ih m2 (absSet l k v) hInv2 hM2
        (fun o ho => hkeys o (List.mem_cons_of_mem _ ho)) (by omega)
      refine ⟨m3, ?_, hInv3, hM3⟩
      simp only [runOps, applyOp, he, Option.bind_some]
      exact he3
    | reserve e =>
      rw [setOpCount_cons_reserve] at hbound
      obtain ⟨hInv2, hc2, hitems2, _⟩ := reserve_inv m e hInv
      have hM2 : Model (trashmap_reserve m e) l := by
        refine ⟨by rw [hc2]; exact hM.1, ?_⟩
        intro i hi
        rw [hitems2 i (by rw [hM.1]; exact hi)]
        exact hM.2 i hi
      obtain ⟨m3, he3, hInv3, hM3⟩ := ih (trashmap_reserve m e) l hInv2 hM2
        (fun o ho => hkeys o (List.mem_cons_of_mem _ ho)) (by omega)
      refine ⟨m3, ?_, hInv3, hM3⟩
      simp only [runOps, applyOp, Option.bind_some]
      exact he3
    | clear =>
      rw [setOpCount_cons_clear] at hbound
      obtain ⟨hInv2, hM2, hc2, _, _, _⟩ := trashmap_clear_inv m hInv
      obtain ⟨m3, he3, hInv3, hM3⟩ := ih (trashmap_clear m) [] hInv2 hM2
        (fun o ho => hkeys o (List.mem_cons_of_mem _ ho)) (by omega)
      refine ⟨m3, ?_, hInv3, hM3⟩
      simp only [runOps, applyOp, Option.bind_some]
      exact he3

theorem runAbs_length_le (ops : List MapOp) :
    ∀ l, (runAbs l ops).length ≤ l.length + setOpCount ops := by
  induction ops with
  | nil =>
    intro l
    simp [runAbs, setOpCount]
  | cons op rest ih =>
    intro l
    cases op with
    | set k v =>
      have h1 := ih (absSet l k v)
      have h2 := absSet_length_le l k v
      have h3 := setOpCount_cons_set k v rest
      simp only [runAbs, absOp]
      omega
    | reserve e =>
      have h1 := ih l
      have h3 := setOpCount_cons_reserve e rest
      simp only [runAbs, absOp]
      omega
    | clear =>
      have h1 := ih ([] : List (List Nat × Option (List Nat)))
      have h3 := setOpCount_cons_clear rest
      simp only [runAbs, absOp]
      simp only [List.length_nil] at h1
      omega

theorem runSets_eq_runOps (ps : List (List Nat × Option (List Nat))) :
    ∀ m, runSets m ps = runOps m (ps.map fun p => MapOp.set p.1 p.2) := by
  induction ps with
  | nil => intro m; rfl
  | cons p rest ih =>
    intro m
    show (trashmap_set m p.1 p.2).bind (fun m1 => runSets m1 rest) =
      (trashmap_set m p.1 p.2).bind
        (fun m1 => runOps m1 (rest.map fun p => MapOp.set p.1 p.2))
    cases h : trashmap_set m p.1 p.2 with
    | none => rfl
    | some m1 => exact ih m1

theorem setOpCount_map_sets (ps : List (List Nat × Option (List Nat))) :
    setOpCount (ps.map fun p => MapOp.set p.1 p.2) = ps.length := by
  induction ps with
  | nil => rfl
  | cons p rest ih =>
    simp only [List.map_cons, setOpCount_cons_set, List.length_cons]
    rw [ih]

theorem runAbs_sets_distinct (ps : List (List Nat × Option (List Nat))) :
    ∀ l, (∀ p ∈ ps, ∀ q ∈ l, q.1 ≠ p.1) →
      ps.Pairwise (fun a b => a.1 ≠ b.1) →
      runAbs l (ps.map fun p => MapOp.set p.1 p.2) = l ++ ps := by
  induction ps with
  | nil =>
    intro l _ _
    rw [List.map_nil]
    show l = l ++ []
    rw [List.append_nil]
  | cons p rest ih =>
    intro l hfresh hdist
    simp only [List.map_cons, runAbs, absOp]
    have habs : absSet l p.1 p.2 = l ++ [p] := by
      unfold absSet
      have hnone : l.any (fun q => q.1 == p.1) = false := by
        apply List.any_eq_false.mpr
        intro q hq
        simpa using hfresh p (List.mem_cons_self p rest) q hq
      rw [hnone]
      simp only [Bool.false_eq_true, if_false]
    rw [habs]
    have hrest := ih (l ++ [p]) ?_ (List.Pairwise.of_cons hdist)
    · rw [hrest, List.append_assoc]
      rfl
    · intro r hr q hq
      rcases List.mem_append.mp hq with hql | hqp
      · exact hfresh r (List.mem_cons_of_mem p hr) q hql
      · have : q = p := by simpa using hqp
        subst this
        exact (List.pairwise_cons.mp hdist).1 r hr
    
theorem trashmap_set_isSome (m : trashmap_t) (key : List Nat)
    (value : Option (List Nat)) (hInv : TmInv m) (hk : CStr key)
    (hcnt1 : m.count + 1 < U32MAX) : (trashmap_set m key value).isSome := by
  by_cases hex : ∃ i, i < m.count ∧ (itemAt m i).key = key
  · obtain ⟨i, hi, hkey⟩ := hex
    obtain ⟨m2, he, _⟩ := trashmap_set_update m key value i hInv hk hi hkey
    rw [he]
    rfl
  · push_neg at hex
    obtain ⟨m2, he, _⟩ := trashmap_set_insert m key value hInv hk hcnt1 hex
    rw [he]
    rfl

/-- C1: on a table freshly initialised with any slot count `≥ 1`, after any
sequence of `trashmap_set` calls with pairwise-distinct well-formed keys
(fewer than the `UINT32_MAX` sentinel bound, the structure's documented item
limit), `trashmap_get` returns the value set for every key and `trashmap_has`
is `true` for it, while `trashmap_has` is `false` (and `trashmap_get` is
`NULL`) for every key never set — across any arena growth and slot rehashes
the inserts trigger. -/
theorem insert_lookup_round_trip (n : Nat)
    (ps : List (List Nat × Option (List Nat))) (hn : 1 ≤ n)
    (hcstr : ∀ p ∈ ps, CStr p.1)
    (hdist : ps.Pairwise (fun a b => a.1 ≠ b.1))
    (hlen : ps.length < U32MAX) :
    ∃ m, runSets (trashmap_init n) ps = some m ∧
      (∀ p ∈ ps, trashmap_get m p.1 = p.2 ∧ trashmap_has m p.1 = true) ∧
      (∀ k, CStr k → (∀ p ∈ ps, p.1 ≠ k) →
        trashmap_has m k = false ∧ trashmap_get m k = none) := by
  obtain ⟨hInv0, hM0⟩ := trashmap_init_inv n hn
  obtain ⟨m, he, hInv, hM⟩ := runOps_master (ps.map fun p => MapOp.set p.1 p.2)
    (trashmap_init n) [] hInv0 hM0
    (by
      intro op hop
      obtain ⟨p, hp, hpe⟩ := List.mem_map.mp hop
      rw [← hpe]
      exact decide_eq_true (hcstr p hp))
    (by
      rw [setOpCount_map_sets]
      show 0 + ps.length < U32MAX
      omega)
  rw [runAbs_sets_distinct ps [] (by simp) hdist, List.nil_append] at hM
  refine ⟨m, by rw [runSets_eq_runOps]; exact he, ?_, ?_⟩
  · intro p hp
    obtain ⟨i, hi, hgd⟩ := exists_getD_of_mem ps p ([], none) hp
    have hitem : itemAt m i = ⟨p.1, p.2⟩ := by rw [hM.2 i hi, hgd]
    have hic : i < m.count := by rw [hM.1]; exact hi
    have hkeyi : (itemAt m i).key = p.1 := by rw [hitem]
    constructor
    · rw [trashmap_get_found m p.1 i hInv (hcstr p hp) hic hkeyi, hitem]
    · exact trashmap_has_found m p.1 i hInv (hcstr p hp) hic hkeyi
  · intro k hkc habsk
    have habs : ∀ i, i < m.count → (itemAt m i).key ≠ k := by
      intro i hi
      have hil : i < ps.length := by rw [← hM.1]; exact hi
      rw [hM.2 i hil]
      exact habsk _ (getD_mem ps i ([], none) hil)
    exact ⟨trashmap_has_absent m k hInv hkc habs,
      trashmap_get_absent m k hInv hkc habs⟩

/-- Witness for `insert_lookup_round_trip`: two distinct keys inserted into a
single-slot table (forcing both arena growth and two slot-table rehashes). -/
theorem insert_lookup_round_trip_witness :
    ∃ m, runSets (trashmap_init 1) [([97], some [49]), ([98], some [50])] =
        some m ∧
      (∀ p ∈ [([97], some [49]), ([98], some [50])],
        trashmap_get m p.1 = p.2 ∧ trashmap_has m p.1 = true) ∧
      (∀ k, CStr k →
        (∀ p ∈ [([97], some [49]), ([98], some [50])], p.1 ≠ k) →
        trashmap_has m k = false ∧ trashmap_get m k = none) :=
  insert_lookup_round_trip 1 [([97], some [49]), ([98], some [50])]
    (by decide) (by decide) (by decide) (by decide)

/-- C3: the representation invariant holds after `trashmap_init` and after
any sequence of the mutating operations (`set`, `reserve`, `clear`; `get` and
`has` do not change the table): `count ≤ capacity`, the 75% load-factor
ceiling, every non-empty slot's `item_index` valid (`< count`), and the arena
cells `[0, count)` are exactly the live entries in insertion order (the
specification-level association list built by `runAbs`). -/
theorem invariant_after_ops (n : Nat) (ops : List MapOp) (hn : 1 ≤ n)
    (hkeys : ∀ op ∈ ops, opKeyOK op = true)
    (hbound : setOpCount ops < U32MAX) :
    ∃ m, runOps (trashmap_init n) ops = some m ∧
      m.count ≤ m.capacity ∧
      m.count ≤ m.slot_count * 3 / 4 ∧
      (∀ s ∈ m.slots, s.index ≠ U32MAX → s.index < m.count) ∧
      m.count = (runAbs [] ops).length ∧
      (∀ i, i < m.count →
        itemAt m i = ⟨((runAbs [] ops).getD i ([], none)).1,
          ((runAbs [] ops).getD i ([], none)).2⟩) := by
  obtain ⟨hInv0, hM0⟩ := trashmap_init_inv n hn
  obtain ⟨m, he, hInv, hM⟩ := runOps_master ops (trashmap_init n) [] hInv0 hM0
    hkeys (by show 0 + setOpCount ops < U32MAX; omega)
  refine ⟨m, he, hInv.2.2.2.1, hInv.2.2.2.2.1,
    fun s hs hne => (hInv.2.2.2.2.2.2.2.1 s hs hne).1, hM.1, ?_⟩
  intro i hi
  exact hM.2 i (by rw [← hM.1]; exact hi)

/-- Witness for `invariant_after_ops`: a mixed operation sequence with an
update, a big reserve and a clear. -/
theorem invariant_after_ops_witness :
    ∃ m, runOps (trashmap_init 4)
        [MapOp.set [97] (some [49]), MapOp.reserve 10,
          MapOp.set [97] (some [50]), MapOp.clear,
          MapOp.set [98] none] = some m ∧
      m.count ≤ m.capacity ∧
      m.count ≤ m.slot_count * 3 / 4 ∧
      (∀ s ∈ m.slots, s.index ≠ U32MAX → s.index < m.count) ∧
      m.count = (runAbs []
        [MapOp.set [97] (some [49]), MapOp.reserve 10,
          MapOp.set [97] (some [50]), MapOp.clear,
          MapOp.set [98] none]).length ∧
      (∀ i, i < m.count →
        itemAt m i = ⟨((runAbs []
          [MapOp.set [97] (some [49]), MapOp.reserve 10,
            MapOp.set [97] (some [50]), MapOp.clear,
            MapOp.set [98] none]).getD i ([], none)).1,
          ((runAbs []
          [MapOp.set [97] (some [49]), MapOp.reserve 10,
            MapOp.set [97] (some [50]), MapOp.clear,
            MapOp.set [98] none]).getD i ([], none)).2⟩) :=
  invariant_after_ops 4
    [MapOp.set [97] (some [49]), MapOp.reserve 10,
      MapOp.set [97] (some [50]), MapOp.clear, MapOp.set [98] none]
    (by decide) (by decide) (by decide)

/-- C7: on every table reachable from `trashmap_init` through the public
operations, the probe loop of `trashmap_set` finds an empty slot or a
matching key before wrapping around, so the `"corrupted hash map"` fatal
assertion (the `none` result of the model) is unreachable. -/
theorem set_assertion_unreachable (n : Nat) (ops : List MapOp)
    (m : trashmap_t) (key : List Nat) (value : Option (List Nat)) (hn : 1 ≤ n)
    (hkeys : ∀ op ∈ ops, opKeyOK op = true)
    (hbound : setOpCount ops + 1 < U32MAX)
    (hrun : runOps (trashmap_init n) ops = some m) (hk : CStr key) :
    (trashmap_set m key value).isSome := by
  obtain ⟨hInv0, hM0⟩ := trashmap_init_inv n hn
  obtain ⟨m2, he, hInv, hM⟩ := runOps_master ops (trashmap_init n) [] hInv0 hM0
    hkeys (by show 0 + setOpCount ops < U32MAX; omega)
  rw [hrun] at he
  have hm : m = m2 := Option.some.inj he
  subst hm
  have hl := runAbs_length_le ops ([] : List (List Nat × Option (List Nat)))
  simp only [List.length_nil] at hl
  exact trashmap_set_isSome m key value hInv hk (by rw [hM.1]; omega)

/-- Witness for `set_assertion_unreachable`: inserting into the freshly
initialised single-slot table. -/
theorem set_assertion_unreachable_witness :
    (trashmap_set (trashmap_init 1) [97] none).isSome :=
  set_assertion_unreachable 1 [] (trashmap_init 1) [97] none (by decide)
    (by decide) (by decide) rfl (by decide)

/-- C2: for every invariant-satisfying table, `set(k, v2)` after an earlier
`set(k, v1)` leaves `count` unchanged, overwrites only that item's stored
value (its key and all other items untouched), and `get(k)` then returns
`v2`. -/
theorem update_in_place (m : trashmap_t) (key : List Nat)
    (v1 v2 : Option (List Nat)) (hInv : TmInv m) (hk : CStr key)
    (hcnt1 : m.count + 1 < U32MAX) :
    ∃ m1 m2, trashmap_set m key v1 = some m1 ∧
      trashmap_set m1 key v2 = some m2 ∧
      m2.count = m1.count ∧
      (∃ i, i < m1.count ∧ itemAt m1 i = ⟨key, v1⟩ ∧
        itemAt m2 i = ⟨key, v2⟩ ∧
        (∀ j, j < m1.count → j ≠ i → itemAt m2 j = itemAt m1 j)) ∧
      trashmap_get m2 key = v2 := by
  have hcommon : ∀ m1 i1, TmInv m1 → i1 < m1.count → itemAt m1 i1 = ⟨key, v1⟩ →
      ∃ m2, trashmap_set m1 key v2 = some m2 ∧ m2.count = m1.count ∧
        itemAt m2 i1 = ⟨key, v2⟩ ∧
        (∀ j, j < m1.count → j ≠ i1 → itemAt m2 j = itemAt m1 j) ∧
        trashmap_get m2 key = v2 := by
    intro m1 i1 hInv1 hi1 hitem1
    have hkey1 : (itemAt m1 i1).key = key := by rw [hitem1]
    obtain ⟨m2, he2, hInv2, hc2, hupd2, hframe2⟩ :=
      trashmap_set_update m1 key v2 i1 hInv1 hk hi1 hkey1
    have hg := trashmap_get_found m2 key i1 hInv2 hk (by omega)
      (by rw [hupd2])
    rw [hupd2] at hg
    exact ⟨m2, he2, hc2, hupd2, hframe2, hg⟩
  by_cases hex : ∃ i, i < m.count ∧ (itemAt m i).key = key
  · obtain ⟨i0, hi0, hkey0⟩ := hex
    obtain ⟨m1, he1, hInv1, hc1, hupd1, _⟩ :=
      trashmap_set_update m key v1 i0 hInv hk hi0 hkey0
    obtain ⟨m2, he2, hc2, hupd2, hframe2, hg⟩ :=
      hcommon m1 i0 hInv1 (by omega) hupd1
    exact ⟨m1, m2, he1, he2, hc2,
      ⟨i0, by omega, hupd1, hupd2, hframe2⟩, hg⟩
  · push_neg at hex
    obtain ⟨m1, he1, hInv1, hc1, hnew1, _⟩ :=
      trashmap_set_insert m key v1 hInv hk hcnt1 hex
    obtain ⟨m2, he2, hc2, hupd2, hframe2, hg⟩ :=
      hcommon m1 m.count hInv1 (by omega) hnew1
    exact ⟨m1, m2, he1, he2, hc2,
      ⟨m.count, by omega, hnew1, hupd2, hframe2⟩, hg⟩

/-- Witness for `update_in_place` on a concrete 4-slot table. -/
theorem update_in_place_witness :
    ∃ m1 m2, trashmap_set (trashmap_init 4) [97] (some [49]) = some m1 ∧
      trashmap_set m1 [97] (some [50]) = some m2 ∧
      m2.count = m1.count ∧
      (∃ i, i < m1.count ∧ itemAt m1 i = ⟨[97], some [49]⟩ ∧
        itemAt m2 i = ⟨[97], some [50]⟩ ∧
        (∀ j, j < m1.count → j ≠ i → itemAt m2 j = itemAt m1 j)) ∧
      trashmap_get m2 [97] = some [50] :=
  update_in_place (trashmap_init 4) [97] (some [49]) (some [50]) (by decide)
    (by decide) (by decide)

/-- C8: `trashmap_clear` zeroes `count` and re-marks every slot empty, leaving
`slot_count`, `capacity` and the item arena (including the abandoned item
contents) untouched; afterwards `trashmap_has` is `false` for every key, and
a subsequent `set`/`get`/`has` cycle works correctly on the retained
allocations. -/
theorem clear_semantics (m : trashmap_t) (hInv : TmInv m) :
    (trashmap_clear m).count = 0 ∧
    (trashmap_clear m).slots = List.replicate m.slot_count emptySlot ∧
    (trashmap_clear m).slot_count = m.slot_count ∧
    (trashmap_clear m).capacity = m.capacity ∧
    (trashmap_clear m).items = m.items ∧
    (∀ k, CStr k → trashmap_has (trashmap_clear m) k = false) ∧
    (∀ k v, CStr k → ∃ m2, trashmap_set (trashmap_clear m) k v = some m2 ∧
      trashmap_get m2 k = v ∧ trashmap_has m2 k = true) := by
  obtain ⟨hInv2, hM2, hc2, hsc2, hcap2, hit2⟩ := trashmap_clear_inv m hInv
  refine ⟨rfl, rfl, rfl, rfl, rfl, ?_, ?_⟩
  · intro k hkc
    exact trashmap_has_absent (trashmap_clear m) k hInv2 hkc
      (fun i hi => absurd hi (by omega))
  · intro k v hkc
    obtain ⟨m2, he2, hInv3, hc3, hnew3, _⟩ :=
      trashmap_set_insert (trashmap_clear m) k v hInv2 hkc
        (by rw [hc2]; norm_num [U32MAX])
        (fun i hi => absurd hi (by omega))
    have hi0 : (trashmap_clear m).count < m2.count := by omega
    have hkey3 : (itemAt m2 (trashmap_clear m).count).key = k := by
      rw [hnew3]
    have hg := trashmap_get_found m2 k (trashmap_clear m).count hInv3 hkc
      (by omega) hkey3
    rw [hnew3] at hg
    exact ⟨m2, he2, hg,
      trashmap_has_found m2 k (trashmap_clear m).count hInv3 hkc
        (by omega) hkey3⟩

/-- Witness for `clear_semantics` at a concrete table. -/
theorem clear_semantics_witness :
    (trashmap_clear (trashmap_init 4)).count = 0 ∧
    (trashmap_clear (trashmap_init 4)).slots =
      List.replicate (trashmap_init 4).slot_count emptySlot ∧
    (trashmap_clear (trashmap_init 4)).slot_count =
      (trashmap_init 4).slot_count ∧
    (trashmap_clear (trashmap_init 4)).capacity = (trashmap_init 4).capacity ∧
    (trashmap_clear (trashmap_init 4)).items = (trashmap_init 4).items ∧
    (∀ k, CStr k →
      trashmap_has (trashmap_clear (trashmap_init 4)) k = false) ∧
    (∀ k v, CStr k →
      ∃ m2, trashmap_set (trashmap_clear (trashmap_init 4)) k v = some m2 ∧
        trashmap_get m2 k = v ∧ trashmap_has m2 k = true) :=
  clear_semantics (trashmap_init 4) (by decide)
